import Mathlib

/-! # Verification of the Discreta relational-structure and permutation engine

Shallow embedding of the algorithmic core of the Discreta prototype
(poset validation, lattice analysis, permutation cycle decomposition) as
executable Lean definitions, together with proofs and refutations of the
specification claims.

Conventions used throughout:

* JS string labels are modelled by an arbitrary type `α` with decidable
  equality (string identity is exactly decidable equality on labels).
* JS arrays are Lean lists; `Array.prototype.indexOf` returning `-1` is
  modelled by `List.indexOf` returning `l.length`, and the JS
  out-of-bounds read `arr[-1] = undefined` is modelled by
  `List.getD _ default`.
* A JS `Set` built by insertion is modelled by a duplicate-free list in
  insertion order; only membership and size of such sets are ever used.
* JS functions that report failure through a sentinel (`null`) are
  modelled with `Option`.
-/

namespace Discreta

variable {α : Type} [DecidableEq α] [Inhabited α]

/-! ## Permutation analyzer (`PermutationGame.tsx`)

Source:

    function gcd(a: number, b: number): number {
      return b === 0 ? a : gcd(b, a % b);
    }
-/

/-- Embedding of the recursive `gcd` helper of `PermutationGame.tsx`. -/
def gcd (a b : Nat) : Nat :=
  if h : b = 0 then a else gcd b (a % b)
termination_by b
decreasing_by exact Nat.mod_lt _ (Nat.pos_of_ne_zero h)

/-- The JS helper agrees with the mathematical gcd. -/
theorem gcd_eq_gcd (a b : Nat) : gcd a b = Nat.gcd a b := by
  induction a, b using gcd.induct with
  | case1 a => rw [gcd, dif_pos rfl, Nat.gcd_zero_right]
  | case2 a b h ih =>
    rw [gcd, dif_neg h, ih, Nat.gcd_comm b (a % b), ← Nat.gcd_rec b a, Nat.gcd_comm b a]

/-- Inner `while (!visited.has(current))` loop of `computeCycles`:

      while (!visited.has(current)) {
        visited.add(current);
        cycle.push(elements[current]);
        const next = elements.indexOf(permutation[current]);
        current = next;
      }

`visited` is kept as a duplicate-free list in insertion order. -/
def computeCyclesInner (E M : List α) (current : Nat) (visited : List Nat) (cycle : List α) :
    List Nat × List α :=
  if h : current ∈ visited then (visited, cycle)
  else
    computeCyclesInner E M (E.indexOf (M.getD current default))
      (visited ++ [current]) (cycle ++ [E.getD current default])
termination_by
  (Finset.range (E.length + 1) \ visited.toFinset).card + (if current ≤ E.length then 0 else 1)
decreasing_by
  have hidx : E.indexOf (M.getD current default) ≤ E.length := List.indexOf_le_length
  rw [if_pos hidx]
  have happ : (visited ++ [current]).toFinset = visited.toFinset ∪ {current} := by
    simp
  by_cases hc : current ≤ E.length
  · rw [if_pos hc]
    have hsub : Finset.range (E.length + 1) \ (visited ++ [current]).toFinset ⊂
        Finset.range (E.length + 1) \ visited.toFinset := by
      rw [happ]
      apply (Finset.ssubset_iff_of_subset ?sub).mpr
      case sub =>
        intro x hx
        simp only [Finset.mem_sdiff, Finset.mem_union, Finset.mem_singleton,
          Finset.mem_range] at hx ⊢
        exact ⟨hx.1, fun hm => hx.2 (Or.inl hm)⟩
      refine ⟨current, ?_, ?_⟩
      · simp only [Finset.mem_sdiff, Finset.mem_range, List.mem_toFinset]
        exact ⟨Nat.lt_succ_of_le hc, h⟩
      · simp
    have := Finset.card_lt_card hsub
    omega
  · rw [if_neg hc]
    have heq : Finset.range (E.length + 1) \ (visited ++ [current]).toFinset =
        Finset.range (E.length + 1) \ visited.toFinset := by
      rw [happ]
      ext x
      simp only [Finset.mem_sdiff, Finset.mem_union, Finset.mem_singleton, Finset.mem_range]
      constructor
      · rintro ⟨hx, hnx⟩
        exact ⟨hx, fun hm => hnx (Or.inl hm)⟩
      · rintro ⟨hx, hnx⟩
        refine ⟨hx, ?_⟩
        rintro (hm | rfl)
        · exact hnx hm
        · omega
    rw [heq]
    omega

/-- Outer `for` loop of `computeCycles`: walk the indices in order, starting a
fresh cycle at every index not yet visited.  The cycle is appended to the
output in both branches of the JS `if (cycle.length > 1)` (the source pushes
the cycle either way). -/
def computeCyclesOuter (E M : List α) :
    List Nat → List Nat → List (List α) → List Nat × List (List α)
  | [], visited, cycles => (visited, cycles)
  | i :: rest, visited, cycles =>
    if i ∈ visited then computeCyclesOuter E M rest visited cycles
    else
      computeCyclesOuter E M rest (computeCyclesInner E M i visited []).1
        (cycles ++ [(computeCyclesInner E M i visited []).2])

/-- Embedding of `computeCycles(elements, permutation)` of
`PermutationGame.tsx`. -/
def computeCycles (E M : List α) : List (List α) :=
  (computeCyclesOuter E M (List.range E.length) [] []).2

/-- Embedding of `handleCheckPermutation`: the permutation is declared valid
iff `new Set(mapping).size === elements.length` and every mapped value is a
declared element. -/
def handleCheckPermutation (E M : List α) : Bool :=
  decide (M.dedup.length = E.length) && M.all (fun v => decide (v ∈ E))

/-- Embedding of `handleCalculateOrder`: guard
`new Set(mapping).size === elements.length`, then fold
`(acc * len) / gcd(acc, len)` over the cycle lengths starting from 1.
`none` models the early return with the "Cannot calculate order" message. -/
def handleCalculateOrder (E M : List α) : Option Nat :=
  if M.dedup.length = E.length then
    some (((computeCycles E M).map (fun c => c.length)).foldl
      (fun acc len => acc * len / gcd acc len) 1)
  else none

/-- Any element read in bounds belongs to the list. -/
theorem getD_mem_of_lt (l : List α) (i : Nat) (hi : i < l.length) : l.getD i default ∈ l := by
  rw [List.getD_eq_getElem _ _ hi]
  exact List.getElem_mem hi

/-- Structural description of the inner cycle loop: it extends `visited` by a
duplicate-free block `new` of fresh indices beginning with `current` (when
`current` is fresh), pushes exactly the elements at those indices onto the
cycle, and, when the permutation data is well formed and `current` is in
range, visits only in-range indices. -/
theorem computeCyclesInner_shape (E M : List α) (current : Nat) (visited : List Nat)
    (cycle : List α) :
    ∃ new : List Nat,
      (computeCyclesInner E M current visited cycle).1 = visited ++ new ∧
      (computeCyclesInner E M current visited cycle).2 =
        cycle ++ new.map (fun j => E.getD j default) ∧
      new.Nodup ∧ (∀ j ∈ new, j ∉ visited) ∧
      (current ∉ visited → new.head? = some current) ∧
      (current ∈ visited → new = []) ∧
      (current < E.length → M.length = E.length → (∀ v ∈ M, v ∈ E) →
        ∀ j ∈ new, j < E.length) := by
  induction current, visited, cycle using computeCyclesInner.induct E M with
  | case1 current visited cycle h =>
    refine ⟨[], ?_, ?_, ?_, ?_, ?_, ?_, ?_⟩ <;>
      simp [computeCyclesInner, dif_pos h, h]
  | case2 current visited cycle h ih =>
    obtain ⟨new', h1, h2, hnd, hfresh, _hhead, _hmem, hbound⟩ := ih
    refine ⟨current :: new', ?_, ?_, ?_, ?_, ?_, ?_, ?_⟩
    · rw [computeCyclesInner, dif_neg h, h1]
      simp
    · rw [computeCyclesInner, dif_neg h, h2]
      simp
    · refine List.nodup_cons.mpr ⟨fun hc => ?_, hnd⟩
      exact (hfresh current hc) (by simp)
    · intro j hj
      rcases List.mem_cons.mp hj with rfl | hj'
      · exact h
      · intro hv
        exact hfresh j hj' (by simp [hv])
    · intro _
      rfl
    · intro hc
      exact absurd hc h
    · intro hcur hlen hsub j hj
      rcases List.mem_cons.mp hj with rfl | hj'
      · exact hcur
      · have hmem : M.getD current default ∈ M := getD_mem_of_lt M current (hlen ▸ hcur)
        have hnext : E.indexOf (M.getD current default) < E.length :=
          List.indexOf_lt_length.mpr (hsub _ hmem)
        exact hbound hnext hlen hsub j hj'

/-- Structural description of the outer loop: processing the index list `l`
extends `visited` by a duplicate-free block of fresh in-range indices, the
flattened newly-produced cycles read exactly those indices, and every index
of `l` ends up visited. -/
theorem computeCyclesOuter_shape (E M : List α) (hlen : M.length = E.length)
    (hsub : ∀ v ∈ M, v ∈ E) :
    ∀ (l visited : List Nat) (cycles : List (List α)),
      (∀ i ∈ l, i < E.length) →
      ∃ new : List Nat,
        (computeCyclesOuter E M l visited cycles).1 = visited ++ new ∧
        ((computeCyclesOuter E M l visited cycles).2).flatten =
          cycles.flatten ++ new.map (fun j => E.getD j default) ∧
        new.Nodup ∧ (∀ j ∈ new, j ∉ visited ∧ j < E.length) ∧
        (∀ i ∈ l, i ∈ visited ++ new)
  | [], visited, cycles, _ => by
    exact ⟨[], by simp [computeCyclesOuter], by simp [computeCyclesOuter], by simp,
      by simp, by simp⟩
  | i :: rest, visited, cycles, hrange => by
    by_cases hi : i ∈ visited
    · obtain ⟨new, h1, h2, hnd, hprop, hall⟩ :=
        computeCyclesOuter_shape E M hlen hsub rest visited cycles
          (fun j hj => hrange j (List.mem_cons_of_mem _ hj))
      refine ⟨new, ?_, ?_, hnd, hprop, ?_⟩
      · rw [computeCyclesOuter, if_pos hi]
        exact h1
      · rw [computeCyclesOuter, if_pos hi]
        exact h2
      · intro j hj
        rcases List.mem_cons.mp hj with rfl | hj'
        · exact List.mem_append_left _ hi
        · exact hall j hj'
    · obtain ⟨inew, g1, g2, gnd, gfresh, ghead, _gmem, gbound⟩ :=
        computeCyclesInner_shape E M i visited []
      have hinew : i ∈ inew := by
        have := ghead hi
        exact List.mem_of_mem_head? (by simp [this])
      have gbound' : ∀ j ∈ inew, j < E.length :=
        gbound (hrange i (List.mem_cons_self i rest)) hlen hsub
      obtain ⟨new', k1, k2, knd, kprop, kall⟩ :=
        computeCyclesOuter_shape E M hlen hsub rest (visited ++ inew)
          (cycles ++ [(computeCyclesInner E M i visited []).2])
          (fun j hj => hrange j (List.mem_cons_of_mem _ hj))
      refine ⟨inew ++ new', ?_, ?_, ?_, ?_, ?_⟩
      · rw [computeCyclesOuter, if_neg hi, g1, k1]
        simp
      · rw [computeCyclesOuter, if_neg hi, g1, k2, g2]
        simp
      · refine List.Nodup.append gnd knd ?_
        intro j hj hj'
        exact ((kprop j hj').1) (List.mem_append_right _ hj)
      · intro j hj
        rcases List.mem_append.mp hj with hj' | hj'
        · exact ⟨gfresh j hj', gbound' j hj'⟩
        · refine ⟨fun hv => (kprop j hj').1 (List.mem_append_left _ hv), (kprop j hj').2⟩
      · intro j hj
        rcases List.mem_cons.mp hj with rfl | hj'
        · exact List.mem_append_right _ (List.mem_append_left _ hinew)
        · rcases List.mem_append.mp (kall j hj') with hv | hv
          · rcases List.mem_append.mp hv with hv' | hv'
            · exact List.mem_append_left _ hv'
            · exact List.mem_append_right _ (List.mem_append_left _ hv')
          · exact List.mem_append_right _ (List.mem_append_right _ hv)

/-- Reading every position of a list in order reproduces the list. -/
theorem map_getD_range (E : List α) :
    (List.range E.length).map (fun j => E.getD j default) = E := by
  apply List.ext_getElem
  · simp
  · intro i h1 h2
    simp only [List.getElem_map, List.getElem_range]
    rw [List.getD_eq_getElem _ _ h2]

/-- The JS fold `(acc, len) => acc * len / gcd(acc, len)` is the lcm fold. -/
theorem foldl_js_lcm (l : List Nat) :
    ∀ acc : Nat, l.foldl (fun a b => a * b / gcd a b) acc = l.foldl Nat.lcm acc := by
  induction l with
  | nil => intro acc; rfl
  | cons x xs ih =>
    intro acc
    have hstep : acc * x / gcd acc x = Nat.lcm acc x := by
      rw [gcd_eq_gcd]; rfl
    simp only [List.foldl_cons, hstep, ih]

/-- Folding lcm over a list of ones is the identity on the accumulator. -/
theorem foldl_lcm_ones (l : List Nat) (h : ∀ x ∈ l, x = 1) :
    ∀ acc : Nat, l.foldl Nat.lcm acc = acc := by
  induction l with
  | nil => intro acc; rfl
  | cons x xs ih =>
    intro acc
    have hx : x = 1 := h x (by simp)
    simp only [List.foldl_cons, hx, Nat.lcm_one_right]
    exact ih (fun y hy => h y (by simp [hy])) acc

/-- On the identity mapping over a duplicate-free element list, the outer loop
produces exactly one singleton cycle per fresh index. -/
theorem computeCyclesOuter_identity (E : List α) (hE : E.Nodup) :
    ∀ (l visited : List Nat) (cycles : List (List α)),
      (∀ i ∈ l, i < E.length ∧ i ∉ visited) → l.Nodup →
      computeCyclesOuter E E l visited cycles =
        (visited ++ l, cycles ++ l.map (fun i => [E.getD i default]))
  | [], visited, cycles, _, _ => by simp [computeCyclesOuter]
  | i :: rest, visited, cycles, hfresh, hnd => by
    have hi : i ∉ visited := (hfresh i (by simp)).2
    have hilt : i < E.length := (hfresh i (by simp)).1
    have hidx : E.indexOf (E.getD i default) = i := by
      rw [List.getD_eq_getElem _ _ hilt]
      have := List.get_indexOf hE (⟨i, hilt⟩ : Fin E.length)
      simpa using this
    have hinner : computeCyclesInner E E i visited [] =
        (visited ++ [i], [E.getD i default]) := by
      rw [computeCyclesInner, dif_neg hi, hidx, computeCyclesInner,
        dif_pos (by simp : i ∈ visited ++ [i])]
      simp
    have hrest := computeCyclesOuter_identity E hE rest (visited ++ [i])
      (cycles ++ [[E.getD i default]])
      (fun j hj => ⟨(hfresh j (by simp [hj])).1, by
        intro hv
        rcases List.mem_append.mp hv with hv' | hv'
        · exact (hfresh j (by simp [hj])).2 hv'
        · simp only [List.mem_singleton] at hv'
          exact (List.nodup_cons.mp hnd).1 (hv' ▸ hj)⟩)
      (List.nodup_cons.mp hnd).2
    rw [computeCyclesOuter, if_neg hi, hinner]
    simpa using hrest

/-- The identity permutation decomposes into singleton cycles, in order. -/
theorem computeCycles_identity (E : List α) (hE : E.Nodup) :
    computeCycles E E = E.map (fun x => [x]) := by
  unfold computeCycles
  rw [computeCyclesOuter_identity E hE (List.range E.length) [] []
    (fun i hi => ⟨List.mem_range.mp hi, by simp⟩) (List.nodup_range _)]
  have hmap : (List.range E.length).map (fun i => [E.getD i default]) =
      E.map (fun x => [x]) := by
    have h2 := congrArg (List.map (fun x : α => [x])) (map_getD_range E)
    rw [← h2, List.map_map]
    rfl
  simpa using hmap

/-- C4: for every valid permutation (mapping a rearrangement of elements), the
cycle decomposition computed by `computeCycles` — which starts from index 0,
proceeds to the next unvisited index, and follows
`current → index_of(mapping[current])` until revisiting — partitions the
element set: the concatenation of all returned cycles is a permutation of the
input element list, so every element (fixed points included, as singleton
cycles) appears in exactly one returned cycle. -/
theorem computeCycles_partition (E M : List α) (hperm : List.Perm M E) :
    List.Perm (computeCycles E M).flatten E := by
  have hlen : M.length = E.length := hperm.length_eq
  have hsub : ∀ v ∈ M, v ∈ E := fun v hv => hperm.subset hv
  obtain ⟨new, _h1, h2, hnd, hprop, hall⟩ :=
    computeCyclesOuter_shape E M hlen hsub (List.range E.length) [] []
      (fun i hi => List.mem_range.mp hi)
  unfold computeCycles
  rw [h2]
  simp only [List.flatten_nil, List.nil_append]
  have hsub1 : new ⊆ List.range E.length := fun j hj => List.mem_range.mpr (hprop j hj).2
  have hsub2 : List.range E.length ⊆ new := by
    intro i hi
    simpa using hall i hi
  have hperm2 : List.Perm new (List.range E.length) :=
    (List.subperm_of_subset hnd hsub1).perm_of_length_le
      (List.subperm_of_subset (List.nodup_range _) hsub2).length_le
  have := hperm2.map (fun j => E.getD j default)
  rwa [map_getD_range] at this

/-- Witness for C4 at the spec example `[A,B,C] ↦ [B,C,A]`. -/
theorem computeCycles_partition_witness :
    List.Perm (computeCycles ["A", "B", "C"] ["B", "C", "A"]).flatten
      (["A", "B", "C"] : List String) :=
  computeCycles_partition _ _ (by decide)

/-- C5: for a valid permutation the computed order — the fold of
`(acc, len) => acc * len / gcd(acc, len)` over the cycle lengths starting
from accumulator 1 — equals the iterated least common multiple of all cycle
lengths, and the identity permutation has order 1. -/
theorem handleCalculateOrder_lcm (E M : List α) (hE : E.Nodup) (hperm : List.Perm M E) :
    handleCalculateOrder E M =
      some (((computeCycles E M).map (fun c => c.length)).foldl Nat.lcm 1) ∧
    handleCalculateOrder E E = some 1 := by
  have hMnd : M.Nodup := hperm.nodup_iff.mpr hE
  have hguard : M.dedup.length = E.length := by
    rw [List.Nodup.dedup hMnd, hperm.length_eq]
  constructor
  · rw [handleCalculateOrder, if_pos hguard, foldl_js_lcm]
  · have hguardE : E.dedup.length = E.length := by rw [List.Nodup.dedup hE]
    rw [handleCalculateOrder, if_pos hguardE, foldl_js_lcm, computeCycles_identity E hE]
    rw [foldl_lcm_ones]
    intro x hx
    rcases List.mem_map.mp hx with ⟨c, hc, rfl⟩
    rcases List.mem_map.mp hc with ⟨e, _he, rfl⟩
    rfl

/-- Witness for C5 at the spec example `[A,B,C] ↦ [B,C,A]` (one 3-cycle). -/
theorem handleCalculateOrder_lcm_witness :
    handleCalculateOrder ["A", "B", "C"] ["B", "C", "A"] =
      some (((computeCycles ["A", "B", "C"] ["B", "C", "A"]).map
        (fun c => c.length)).foldl Nat.lcm 1) ∧
    handleCalculateOrder ["A", "B", "C"] (["A", "B", "C"] : List String) = some 1 :=
  handleCalculateOrder_lcm _ _ (by decide) (by decide)

/-- C7: under the component invariants (`mapping` parallel to `elements`,
element labels unique), `handleCheckPermutation` accepts iff the mapping is a
set-wise rearrangement of the element list; in particular `[A,A,C]` over
`[A,B,C]` is rejected. -/
theorem handleCheckPermutation_iff_perm (E M : List α) (hlen : M.length = E.length)
    (hE : E.Nodup) :
    (handleCheckPermutation E M = true ↔ List.Perm M E) ∧
    handleCheckPermutation ["A", "B", "C"] (["A", "A", "C"] : List String) = false := by
  refine ⟨?_, by decide⟩
  rw [handleCheckPermutation]
  simp only [Bool.and_eq_true, decide_eq_true_eq, List.all_eq_true]
  constructor
  · rintro ⟨hdlen, hall⟩
    have hMnd : M.Nodup := by
      have hs := List.dedup_sublist M
      have heq := hs.eq_of_length_le (le_of_eq (by rw [hdlen, ← hlen]))
      rw [← heq]
      exact List.nodup_dedup M
    have hsub : M ⊆ E := fun v hv => by simpa using hall v hv
    exact (List.subperm_of_subset hMnd hsub).perm_of_length_le (le_of_eq hlen.symm)
  · intro hperm
    have hMnd : M.Nodup := hperm.nodup_iff.mpr hE
    refine ⟨by rw [List.Nodup.dedup hMnd, hperm.length_eq], fun v hv => by
      simpa using hperm.subset hv⟩

/-- Witness for C7: the spec example `[B,C,A]` is a valid rearrangement of
`[A,B,C]` and is accepted. -/
theorem handleCheckPermutation_iff_perm_witness :
    handleCheckPermutation ["A", "B", "C"] (["B", "C", "A"] : List String) = true :=
  (handleCheckPermutation_iff_perm ["A", "B", "C"] ["B", "C", "A"] (by decide)
    (by decide)).1.mpr (by decide)

/-- C10 (amended): the cardinality guard of `handleCalculateOrder` alone does
not keep `computeCycles` index accesses in range; when, in addition to the
guard, every mapped value is a declared element (and the mapping stays
parallel to the element list), every index access of `computeCycles` is in
range and every returned cycle contains only declared elements. -/
theorem computeCycles_cycles_declared (E M : List α) (hguard : M.dedup.length = E.length)
    (hlen : M.length = E.length) (hsub : ∀ v ∈ M, v ∈ E) :
    ∀ c ∈ computeCycles E M, ∀ x ∈ c, x ∈ E := by
  clear hguard
  obtain ⟨new, _h1, h2, _hnd, hprop, _hall⟩ :=
    computeCyclesOuter_shape E M hlen hsub (List.range E.length) [] []
      (fun i hi => List.mem_range.mp hi)
  intro c hc x hx
  have hxf : x ∈ (computeCyclesOuter E M (List.range E.length) [] []).2.flatten :=
    List.mem_flatten.mpr ⟨c, hc, hx⟩
  rw [h2] at hxf
  simp only [List.flatten_nil, List.nil_append, List.mem_map] at hxf
  obtain ⟨j, hj, rfl⟩ := hxf
  exact getD_mem_of_lt E j (hprop j hj).2

/-- Evaluation of the cycle decomposition at the valid example `[B,C,A]`. -/
theorem computeCycles_example_eval :
    computeCycles ["A", "B", "C"] ["B", "C", "A"] = [["A", "B", "C"]] := by
  have hr : List.range (3 : Nat) = [0, 1, 2] := by decide
  simp only [computeCycles, List.length_cons, List.length_nil]
  rw [show (0 : Nat) + 1 + 1 + 1 = 3 by rfl, hr]
  simp [computeCyclesOuter, computeCyclesInner]

/-- Witness for the amended C10, applied at the valid example: the member `A`
of the single returned cycle is a declared element. -/
theorem computeCycles_cycles_declared_witness :
    "A" ∈ (["A", "B", "C"] : List String) :=
  computeCycles_cycles_declared ["A", "B", "C"] ["B", "C", "A"] (by decide) (by decide)
    (by decide) ["A", "B", "C"] (by rw [computeCycles_example_eval]; simp) "A" (by simp)

/-- C10 counterexample: with elements `[A,B,C]` and mapping `[X,Y,Z]` the
guard `new Set(mapping).size === elements.length` succeeds, yet
`elements.indexOf(mapping[0])` misses (modelled as returning
`elements.length`), the walk reads `elements` out of range (modelled by the
default label), and a returned cycle contains a non-declared member. -/
theorem handleCalculateOrder_guard_insufficient :
    (["X", "Y", "Z"] : List String).dedup.length = (["A", "B", "C"] : List String).length ∧
    (["A", "B", "C"] : List String).indexOf
      ((["X", "Y", "Z"] : List String).getD 0 default) =
      (["A", "B", "C"] : List String).length ∧
    ∃ c ∈ computeCycles (["A", "B", "C"] : List String) ["X", "Y", "Z"],
      ∃ x ∈ c, x ∉ (["A", "B", "C"] : List String) := by
  refine ⟨by decide, by decide, ?_⟩
  have heval : computeCycles (["A", "B", "C"] : List String) ["X", "Y", "Z"] =
      [["A", ""], ["B"], ["C"]] := by
    have hr : List.range (3 : Nat) = [0, 1, 2] := by decide
    simp only [computeCycles, List.length_cons, List.length_nil]
    rw [show (0 : Nat) + 1 + 1 + 1 = 3 by rfl, hr]
    simp [computeCyclesOuter, computeCyclesInner]
  rw [heval]
  refine ⟨["A", ""], by simp, "", by simp, by decide⟩

/-! ## Relation validator (`PosetGame` components)

The poset builder stores the relation as an adjacency list: one entry per
declared element, carrying the list of direct targets (`a ≤ b` edges). -/

/-- One adjacency entry of the poset builder. -/
structure PosetElement (α : Type) where
  value : α
  relations : List α
deriving DecidableEq

/-- `checkReflexivity`: scan the entries in order and report the first element
not related to itself. -/
def findNonReflexive : List (PosetElement α) → Option α
  | [] => none
  | el :: rest =>
    if el.value ∈ el.relations then findNonReflexive rest else some el.value

/-- Inner loop of `checkAntisymmetry`: scan `el2` over the whole poset looking
for a mutual pair with the fixed `el1`. -/
def findAntisymViolationWith (el1 : PosetElement α) : List (PosetElement α) → Option (α × α)
  | [] => none
  | el2 :: rest =>
    if el1.value ≠ el2.value ∧ el2.value ∈ el1.relations ∧ el1.value ∈ el2.relations then
      some (el1.value, el2.value)
    else findAntisymViolationWith el1 rest

/-- Outer loop of `checkAntisymmetry`. -/
def findAntisymViolation (poset : List (PosetElement α)) :
    List (PosetElement α) → Option (α × α)
  | [] => none
  | el1 :: rest =>
    match findAntisymViolationWith el1 poset with
    | some w => some w
    | none => findAntisymViolation poset rest

/-- Innermost loop of `checkTransitivity`: for fixed `el1` and middle label
`b`, find the first `c` among `b`'s targets that `el1` misses. -/
def findMissingLink (el1 : PosetElement α) (b : α) : List α → Option (α × α × α)
  | [] => none
  | c :: rest =>
    if c ∈ el1.relations then findMissingLink el1 b rest else some (el1.value, b, c)

/-- Middle loop of `checkTransitivity`: walk `el1`'s targets; a target with no
declared entry is skipped (`if (!bElement) continue`). -/
def findTransViolationFor (poset : List (PosetElement α)) (el1 : PosetElement α) :
    List α → Option (α × α × α)
  | [] => none
  | b :: rest =>
    match poset.find? (fun el => decide (el.value = b)) with
    | none => findTransViolationFor poset el1 rest
    | some bEl =>
      match findMissingLink el1 b bEl.relations with
      | some w => some w
      | none => findTransViolationFor poset el1 rest

/-- Outer loop of `checkTransitivity`. -/
def findTransViolation (poset : List (PosetElement α)) :
    List (PosetElement α) → Option (α × α × α)
  | [] => none
  | el1 :: rest =>
    match findTransViolationFor poset el1 el1.relations with
    | some w => some w
    | none => findTransViolation poset rest

/-- The three axiom-violation kinds of the validator contract. -/
inductive ViolationKind where
  | NotReflexive
  | NotAntisymmetric
  | NotTransitive
deriving DecidableEq

/-- Validator verdict: `Valid`, or the first violation found together with the
labels named in the feedback message. -/
inductive Verdict (α : Type) where
  | Valid
  | Invalid (kind : ViolationKind) (witness : List α)
deriving DecidableEq

/-- Embedding of `handleCheckPoset`: reflexivity, then antisymmetry, then
transitivity, stopping at the first failure. -/
def handleCheckPoset (poset : List (PosetElement α)) : Verdict α :=
  match findNonReflexive poset with
  | some a => .Invalid .NotReflexive [a]
  | none =>
    match findAntisymViolation poset poset with
    | some (a, b) => .Invalid .NotAntisymmetric [a, b]
    | none =>
      match findTransViolation poset poset with
      | some (a, b, c) => .Invalid .NotTransitive [a, b, c]
      | none => .Valid

/-- The declared element labels, in declaration order. -/
def elementsOf (poset : List (PosetElement α)) : List α := poset.map (fun el => el.value)

/-- The relation described by the adjacency list: `a` relates to `b` iff some
declared entry labelled `a` lists `b` as a target. -/
def relatesTo (poset : List (PosetElement α)) (a b : α) : Prop :=
  ∃ el ∈ poset, el.value = a ∧ b ∈ el.relations

instance (poset : List (PosetElement α)) (a b : α) : Decidable (relatesTo poset a b) := by
  unfold relatesTo
  infer_instance

/-- Reflexivity over the element set. -/
def IsReflexive (poset : List (PosetElement α)) : Prop :=
  ∀ a ∈ elementsOf poset, relatesTo poset a a

instance (poset : List (PosetElement α)) : Decidable (IsReflexive poset) := by
  unfold IsReflexive
  infer_instance

/-- Antisymmetry: no mutual relation between distinct labels. -/
def IsAntisymmetric (poset : List (PosetElement α)) : Prop :=
  ∀ a b : α, a ≠ b → relatesTo poset a b → relatesTo poset b a → False

/-- Transitivity of the described relation. -/
def IsTransitive (poset : List (PosetElement α)) : Prop :=
  ∀ a b c : α, relatesTo poset a b → relatesTo poset b c → relatesTo poset a c

/-- Antisymmetry reduces to a finite scan over entry pairs. -/
theorem isAntisymmetric_iff (poset : List (PosetElement α)) :
    IsAntisymmetric poset ↔ ∀ el1 ∈ poset, ∀ el2 ∈ poset,
      ¬(el1.value ≠ el2.value ∧ el2.value ∈ el1.relations ∧ el1.value ∈ el2.relations) := by
  constructor
  · rintro H el1 h1 el2 h2 ⟨hne, h12, h21⟩
    exact H el1.value el2.value hne ⟨el1, h1, rfl, h12⟩ ⟨el2, h2, rfl, h21⟩
  · rintro H a b hne ⟨el1, h1, rfl, h12⟩ ⟨el2, h2, rfl, h21⟩
    exact H el1 h1 el2 h2 ⟨hne, h12, h21⟩

instance (poset : List (PosetElement α)) : Decidable (IsAntisymmetric poset) :=
  decidable_of_iff _ (isAntisymmetric_iff poset).symm

/-- Transitivity reduces to a finite scan over entry pairs and targets. -/
theorem isTransitive_iff (poset : List (PosetElement α)) :
    IsTransitive poset ↔ ∀ el1 ∈ poset, ∀ el2 ∈ poset,
      el2.value ∈ el1.relations → ∀ c ∈ el2.relations, relatesTo poset el1.value c := by
  constructor
  · intro H el1 h1 el2 h2 hmem c hc
    exact H el1.value el2.value c ⟨el1, h1, rfl, hmem⟩ ⟨el2, h2, rfl, hc⟩
  · rintro H a b c ⟨el1, h1, rfl, h12⟩ ⟨el2, h2, rfl, h2c⟩
    exact H el1 h1 el2 h2 h12 c h2c

instance (poset : List (PosetElement α)) : Decidable (IsTransitive poset) :=
  decidable_of_iff _ (isTransitive_iff poset).symm

/-- Entries of a value-duplicate-free adjacency list are determined by their
label. -/
theorem entry_eq_of_value_eq {poset : List (PosetElement α)}
    (hnd : (elementsOf poset).Nodup) {el el' : PosetElement α}
    (h : el ∈ poset) (h' : el' ∈ poset) (hv : el.value = el'.value) : el = el' :=
  List.inj_on_of_nodup_map hnd h h' hv

theorem findNonReflexive_eq_none {l : List (PosetElement α)} :
    findNonReflexive l = none ↔ ∀ el ∈ l, el.value ∈ el.relations := by
  induction l with
  | nil => simp [findNonReflexive]
  | cons el rest ih =>
    by_cases hel : el.value ∈ el.relations
    · simp [findNonReflexive, if_pos hel, ih, hel]
    · simp [findNonReflexive, if_neg hel, hel]

theorem findNonReflexive_eq_some {l : List (PosetElement α)} {a : α}
    (h : findNonReflexive l = some a) :
    ∃ el ∈ l, el.value = a ∧ el.value ∉ el.relations := by
  induction l with
  | nil => simp [findNonReflexive] at h
  | cons el rest ih =>
    by_cases hel : el.value ∈ el.relations
    · rw [findNonReflexive, if_pos hel] at h
      obtain ⟨el', hm, hv, hn⟩ := ih h
      exact ⟨el', List.mem_cons_of_mem _ hm, hv, hn⟩
    · rw [findNonReflexive, if_neg hel] at h
      exact ⟨el, List.mem_cons_self _ _, Option.some_inj.mp h, hel⟩

theorem findAntisymViolationWith_eq_none {el1 : PosetElement α} {l : List (PosetElement α)} :
    findAntisymViolationWith el1 l = none ↔ ∀ el2 ∈ l,
      ¬(el1.value ≠ el2.value ∧ el2.value ∈ el1.relations ∧ el1.value ∈ el2.relations) := by
  induction l with
  | nil => simp [findAntisymViolationWith]
  | cons el2 rest ih =>
    by_cases hc : el1.value ≠ el2.value ∧ el2.value ∈ el1.relations ∧ el1.value ∈ el2.relations
    · rw [findAntisymViolationWith, if_pos hc]
      constructor
      · intro h
        exact absurd h (by simp)
      · intro H
        exact absurd hc (H el2 (List.mem_cons_self _ _))
    · rw [findAntisymViolationWith, if_neg hc, ih]
      constructor
      · intro H x hx
        rcases List.mem_cons.mp hx with rfl | hx'
        · exact hc
        · exact H x hx'
      · intro H x hx
        exact H x (List.mem_cons_of_mem _ hx)

theorem findAntisymViolationWith_eq_some {el1 : PosetElement α} {l : List (PosetElement α)}
    {w : α × α} (h : findAntisymViolationWith el1 l = some w) :
    ∃ el2 ∈ l, (el1.value ≠ el2.value ∧ el2.value ∈ el1.relations ∧ el1.value ∈ el2.relations) ∧
      w = (el1.value, el2.value) := by
  induction l with
  | nil => simp [findAntisymViolationWith] at h
  | cons el2 rest ih =>
    by_cases hc : el1.value ≠ el2.value ∧ el2.value ∈ el1.relations ∧ el1.value ∈ el2.relations
    · rw [findAntisymViolationWith, if_pos hc] at h
      exact ⟨el2, List.mem_cons_self _ _, hc, (Option.some_inj.mp h).symm⟩
    · rw [findAntisymViolationWith, if_neg hc] at h
      obtain ⟨el', hm, hp, hw⟩ := ih h
      exact ⟨el', List.mem_cons_of_mem _ hm, hp, hw⟩

theorem findAntisymViolation_eq_none {poset l : List (PosetElement α)} :
    findAntisymViolation poset l = none ↔
      ∀ el1 ∈ l, findAntisymViolationWith el1 poset = none := by
  induction l with
  | nil => simp [findAntisymViolation]
  | cons el1 rest ih =>
    rw [findAntisymViolation]
    rcases hw : findAntisymViolationWith el1 poset with _ | w
    · simp [hw, ih]
    · simp [hw]

theorem findAntisymViolation_eq_some {poset l : List (PosetElement α)} {w : α × α}
    (h : findAntisymViolation poset l = some w) :
    ∃ el1 ∈ l, findAntisymViolationWith el1 poset = some w := by
  induction l with
  | nil => simp [findAntisymViolation] at h
  | cons el1 rest ih =>
    rw [findAntisymViolation] at h
    rcases hw : findAntisymViolationWith el1 poset with _ | w'
    · rw [hw] at h
      obtain ⟨el', hm, hp⟩ := ih h
      exact ⟨el', List.mem_cons_of_mem _ hm, hp⟩
    · rw [hw] at h
      exact ⟨el1, List.mem_cons_self _ _, hw.trans h⟩

theorem findMissingLink_eq_none {el1 : PosetElement α} {b : α} {cs : List α} :
    findMissingLink el1 b cs = none ↔ ∀ c ∈ cs, c ∈ el1.relations := by
  induction cs with
  | nil => simp [findMissingLink]
  | cons c rest ih =>
    by_cases hc : c ∈ el1.relations
    · simp [findMissingLink, if_pos hc, ih, hc]
    · simp [findMissingLink, if_neg hc, hc]

theorem findMissingLink_eq_some {el1 : PosetElement α} {b : α} {cs : List α} {w : α × α × α}
    (h : findMissingLink el1 b cs = some w) :
    ∃ c ∈ cs, c ∉ el1.relations ∧ w = (el1.value, b, c) := by
  induction cs with
  | nil => simp [findMissingLink] at h
  | cons c rest ih =>
    by_cases hc : c ∈ el1.relations
    · rw [findMissingLink, if_pos hc] at h
      obtain ⟨c', hm, hp, hw⟩ := ih h
      exact ⟨c', List.mem_cons_of_mem _ hm, hp, hw⟩
    · rw [findMissingLink, if_neg hc] at h
      exact ⟨c, List.mem_cons_self _ _, hc, (Option.some_inj.mp h).symm⟩

theorem findTransViolationFor_eq_none {poset : List (PosetElement α)} {el1 : PosetElement α}
    {bs : List α} :
    findTransViolationFor poset el1 bs = none ↔ ∀ b ∈ bs, ∀ bEl,
      poset.find? (fun el => decide (el.value = b)) = some bEl →
      findMissingLink el1 b bEl.relations = none := by
  induction bs with
  | nil => simp [findTransViolationFor]
  | cons b rest ih =>
    rw [findTransViolationFor]
    rcases hf : poset.find? (fun el => decide (el.value = b)) with _ | bEl
    · simp only [hf, ih]
      constructor
      · intro H b' hb' bEl' hfind
        rcases List.mem_cons.mp hb' with rfl | hb''
        · rw [hf] at hfind
          exact absurd hfind (by simp)
        · exact H b' hb'' bEl' hfind
      · intro H b' hb' bEl' hfind
        exact H b' (List.mem_cons_of_mem _ hb') bEl' hfind
    · simp only [hf]
      rcases hm : findMissingLink el1 b bEl.relations with _ | w
      · simp only [hm, ih]
        constructor
        · intro H b' hb' bEl' hfind
          rcases List.mem_cons.mp hb' with rfl | hb''
          · rw [hf] at hfind
            rw [Option.some_inj.mp hfind] at hm
            exact hm
          · exact H b' hb'' bEl' hfind
        · intro H b' hb' bEl' hfind
          exact H b' (List.mem_cons_of_mem _ hb') bEl' hfind
      · simp only [hm]
        constructor
        · intro H
          exact absurd H (by simp)
        · intro H
          have := H b (List.mem_cons_self _ _) bEl hf
          rw [this] at hm
          exact absurd hm (by simp)

theorem findTransViolationFor_eq_some {poset : List (PosetElement α)} {el1 : PosetElement α}
    {bs : List α} {w : α × α × α} (h : findTransViolationFor poset el1 bs = some w) :
    ∃ b ∈ bs, ∃ bEl, poset.find? (fun el => decide (el.value = b)) = some bEl ∧
      findMissingLink el1 b bEl.relations = some w := by
  induction bs with
  | nil => simp [findTransViolationFor] at h
  | cons b rest ih =>
    rw [findTransViolationFor] at h
    rcases hf : poset.find? (fun el => decide (el.value = b)) with _ | bEl
    · simp only [hf] at h
      obtain ⟨b', hm, hp⟩ := ih h
      exact ⟨b', List.mem_cons_of_mem _ hm, hp⟩
    · simp only [hf] at h
      rcases hm : findMissingLink el1 b bEl.relations with _ | w'
      · simp only [hm] at h
        obtain ⟨b', hm', hp⟩ := ih h
        exact ⟨b', List.mem_cons_of_mem _ hm', hp⟩
      · simp only [hm] at h
        exact ⟨b, List.mem_cons_self _ _, bEl, hf, hm.trans h⟩

theorem findTransViolation_eq_none {poset l : List (PosetElement α)} :
    findTransViolation poset l = none ↔
      ∀ el1 ∈ l, findTransViolationFor poset el1 el1.relations = none := by
  induction l with
  | nil => simp [findTransViolation]
  | cons el1 rest ih =>
    rw [findTransViolation]
    rcases hw : findTransViolationFor poset el1 el1.relations with _ | w
    · simp [hw, ih]
    · simp [hw]

theorem findTransViolation_eq_some {poset l : List (PosetElement α)} {w : α × α × α}
    (h : findTransViolation poset l = some w) :
    ∃ el1 ∈ l, findTransViolationFor poset el1 el1.relations = some w := by
  induction l with
  | nil => simp [findTransViolation] at h
  | cons el1 rest ih =>
    rw [findTransViolation] at h
    rcases hw : findTransViolationFor poset el1 el1.relations with _ | w'
    · rw [hw] at h
      obtain ⟨el', hm, hp⟩ := ih h
      exact ⟨el', List.mem_cons_of_mem _ hm, hp⟩
    · rw [hw] at h
      exact ⟨el1, List.mem_cons_self _ _, hw.trans h⟩

/-- The reflexivity scan succeeds iff the relation is reflexive. -/
theorem findNonReflexive_none_iff (poset : List (PosetElement α))
    (hnd : (elementsOf poset).Nodup) :
    findNonReflexive poset = none ↔ IsReflexive poset := by
  rw [findNonReflexive_eq_none]
  constructor
  · intro H a ha
    obtain ⟨el, hm, rfl⟩ := List.mem_map.mp ha
    exact ⟨el, hm, rfl, H el hm⟩
  · intro H el hm
    obtain ⟨el', hm', hv, hrel⟩ := H el.value (List.mem_map.mpr ⟨el, hm, rfl⟩)
    rwa [entry_eq_of_value_eq hnd hm' hm hv] at hrel

/-- The antisymmetry scan succeeds iff the relation is antisymmetric. -/
theorem findAntisymViolation_none_iff (poset : List (PosetElement α)) :
    findAntisymViolation poset poset = none ↔ IsAntisymmetric poset := by
  rw [findAntisymViolation_eq_none, isAntisymmetric_iff]
  constructor
  · intro H el1 h1 el2 h2 hc
    exact (findAntisymViolationWith_eq_none.mp (H el1 h1)) el2 h2 hc
  · intro H el1 h1
    exact findAntisymViolationWith_eq_none.mpr (fun el2 h2 => H el1 h1 el2 h2)

/-- The transitivity scan succeeds iff the relation is transitive. -/
theorem findTransViolation_none_iff (poset : List (PosetElement α))
    (hnd : (elementsOf poset).Nodup) :
    findTransViolation poset poset = none ↔ IsTransitive poset := by
  rw [findTransViolation_eq_none, isTransitive_iff]
  constructor
  · intro H el1 h1 el2 h2 hmem c hc
    have h2' := findTransViolationFor_eq_none.mp (H el1 h1)
    have hex : ∃ bEl, poset.find? (fun el => decide (el.value = el2.value)) = some bEl := by
      rcases hp : poset.find? (fun el => decide (el.value = el2.value)) with _ | bEl
      · rw [List.find?_eq_none] at hp
        exact absurd (by simp : decide (el2.value = el2.value) = true) (hp el2 h2)
      · exact ⟨bEl, hp⟩
    obtain ⟨bEl, hfind⟩ := hex
    have hbmem : bEl ∈ poset := List.mem_of_find?_eq_some hfind
    have hbval : bEl.value = el2.value := by simpa using List.find?_some hfind
    have hml := findMissingLink_eq_none.mp (h2' el2.value hmem bEl hfind)
    rw [entry_eq_of_value_eq hnd hbmem h2 hbval] at hml
    exact ⟨el1, h1, rfl, hml c hc⟩
  · intro H el1 h1
    apply findTransViolationFor_eq_none.mpr
    intro b hb bEl hfind
    apply findMissingLink_eq_none.mpr
    intro c hc
    have hbmem : bEl ∈ poset := List.mem_of_find?_eq_some hfind
    have hbval : bEl.value = b := by simpa using List.find?_some hfind
    obtain ⟨el', hm', hv', hc'⟩ := H el1 h1 bEl hbmem (by rwa [hbval]) c hc
    rwa [entry_eq_of_value_eq hnd hm' h1 hv'] at hc'

/-- C2: over any finite element set with unique labels, `handleCheckPoset`
returns `Valid` iff the relation is reflexive, antisymmetric and transitive;
otherwise it reports exactly the first failing axiom in the fixed order
reflexivity → antisymmetry → transitivity, with a witness naming an actually
offending element, pair, or chain. -/
theorem handleCheckPoset_spec (poset : List (PosetElement α))
    (hnd : (elementsOf poset).Nodup) :
    (handleCheckPoset poset = Verdict.Valid ↔
      IsReflexive poset ∧ IsAntisymmetric poset ∧ IsTransitive poset) ∧
    (¬ IsReflexive poset →
      ∃ a, handleCheckPoset poset = Verdict.Invalid ViolationKind.NotReflexive [a] ∧
        a ∈ elementsOf poset ∧ ¬ relatesTo poset a a) ∧
    (IsReflexive poset → ¬ IsAntisymmetric poset →
      ∃ a b, handleCheckPoset poset = Verdict.Invalid ViolationKind.NotAntisymmetric [a, b] ∧
        a ≠ b ∧ relatesTo poset a b ∧ relatesTo poset b a) ∧
    (IsReflexive poset → IsAntisymmetric poset → ¬ IsTransitive poset →
      ∃ a b c, handleCheckPoset poset = Verdict.Invalid ViolationKind.NotTransitive [a, b, c] ∧
        relatesTo poset a b ∧ relatesTo poset b c ∧ ¬ relatesTo poset a c) := by
  refine ⟨?_, ?_, ?_, ?_⟩
  · constructor
    · intro hvalid
      rcases hR : findNonReflexive poset with _ | a
      · rcases hA : findAntisymViolation poset poset with _ | w
        · rcases hT : findTransViolation poset poset with _ | w'
          · exact ⟨(findNonReflexive_none_iff poset hnd).mp hR,
              (findAntisymViolation_none_iff poset).mp hA,
              (findTransViolation_none_iff poset hnd).mp hT⟩
          · rcases w' with ⟨a, b, c⟩
            rw [handleCheckPoset] at hvalid
            simp [hR, hA, hT] at hvalid
        · rcases w with ⟨a, b⟩
          rw [handleCheckPoset] at hvalid
          simp [hR, hA] at hvalid
      · rw [handleCheckPoset] at hvalid
        simp [hR] at hvalid
    · rintro ⟨h1, h2, h3⟩
      rw [handleCheckPoset]
      simp only [(findNonReflexive_none_iff poset hnd).mpr h1,
        (findAntisymViolation_none_iff poset).mpr h2,
        (findTransViolation_none_iff poset hnd).mpr h3]
  · intro hnr
    rcases hR : findNonReflexive poset with _ | a
    · exact absurd ((findNonReflexive_none_iff poset hnd).mp hR) hnr
    · obtain ⟨el, hm, hv, hn⟩ := findNonReflexive_eq_some hR
      refine ⟨a, by rw [handleCheckPoset]; simp only [hR], ?_, ?_⟩
      · exact hv ▸ List.mem_map.mpr ⟨el, hm, rfl⟩
      · rintro ⟨el', hm', hv', hrel'⟩
        have : el' = el := entry_eq_of_value_eq hnd hm' hm (by rw [hv', hv])
        rw [this] at hrel' hv'
        rw [← hv] at hrel'
        exact hn hrel'
  · intro hr hna
    have hR : findNonReflexive poset = none := (findNonReflexive_none_iff poset hnd).mpr hr
    rcases hA : findAntisymViolation poset poset with _ | w
    · exact absurd ((findAntisymViolation_none_iff poset).mp hA) hna
    · obtain ⟨el1, h1, hW⟩ := findAntisymViolation_eq_some hA
      obtain ⟨el2, h2, ⟨hne, h12, h21⟩, hw⟩ := findAntisymViolationWith_eq_some hW
      refine ⟨el1.value, el2.value, ?_, hne, ⟨el1, h1, rfl, h12⟩, ⟨el2, h2, rfl, h21⟩⟩
      rw [handleCheckPoset]
      simp only [hR, hA, hw]
  · intro hr ha hnt
    have hR : findNonReflexive poset = none := (findNonReflexive_none_iff poset hnd).mpr hr
    have hA : findAntisymViolation poset poset = none :=
      (findAntisymViolation_none_iff poset).mpr ha
    rcases hT : findTransViolation poset poset with _ | w
    · exact absurd ((findTransViolation_none_iff poset hnd).mp hT) hnt
    · obtain ⟨el1, h1, hF⟩ := findTransViolation_eq_some hT
      obtain ⟨b, hb, bEl, hfind, hml⟩ := findTransViolationFor_eq_some hF
      obtain ⟨c, hc, hcn, hw⟩ := findMissingLink_eq_some hml
      have hbmem : bEl ∈ poset := List.mem_of_find?_eq_some hfind
      have hbval : bEl.value = b := by simpa using List.find?_some hfind
      refine ⟨el1.value, b, c, ?_, ⟨el1, h1, rfl, hb⟩, ⟨bEl, hbmem, hbval, hc⟩, ?_⟩
      · rw [handleCheckPoset]
        simp only [hR, hA, hT, hw]
      · rintro ⟨el', hm', hv', hrel'⟩
        rw [entry_eq_of_value_eq hnd hm' h1 hv'] at hrel'
        exact hcn hrel'

/-- Witness for C2 at the spec's worked example
`A≤A,B,C,D; B≤B,D; C≤C,D; D≤D`, a valid poset. -/
theorem handleCheckPoset_spec_witness :
    handleCheckPoset [⟨"A", ["A", "B", "C", "D"]⟩, ⟨"B", ["B", "D"]⟩,
      ⟨"C", ["C", "D"]⟩, ⟨"D", ["D"]⟩] = Verdict.Valid :=
  (handleCheckPoset_spec _ (by decide)).1.mpr ⟨by decide, by decide, by decide⟩

/-- The initial poset of the builder UI (`A→B,C; B→D; C→D; D→∅`). -/
def initialPoset : List (PosetElement String) :=
  [⟨"A", ["B", "C"]⟩, ⟨"B", ["D"]⟩, ⟨"C", ["D"]⟩, ⟨"D", []⟩]

/-- Embedding of `handleAddRelation` (and its twins `addRelation` of
`PosetGame.tsx` and `handleAddConnection` of `LatticeGame.tsx`): given the
parsed input `fr-to`, reject blank labels and `fr = to` (the source demands
`from !== to`, with feedback "Use A-B ... and A ≠ B"), require both endpoints
to be declared, then append `to` to `fr`'s target list unless already present.
`none` models every rejection feedback path. -/
def handleAddRelation (poset : List (PosetElement String)) (fr tgt : String) :
    Option (List (PosetElement String)) :=
  if fr = "" ∨ tgt = "" ∨ fr = tgt then none
  else if ¬ poset.any (fun el => decide (el.value = fr)) then none
  else if ¬ poset.any (fun el => decide (el.value = tgt)) then none
  else
    some (poset.map (fun el =>
      if el.value = fr ∧ tgt ∉ el.relations then
        { el with relations := el.relations ++ [tgt] }
      else el))

/-- C8: the relation-adding operation rejects every self-loop `(a,a)` — even
for declared elements — although the validator's reflexivity check demands
exactly those pairs, so a structure whose relation was built exclusively
through the relation-adding interface can never be declared a valid poset. -/
theorem handleAddRelation_rejects_selfloop :
    (∀ (poset : List (PosetElement String)) (a : String),
      handleAddRelation poset a a = none) ∧
    (∀ poset : List (PosetElement String), poset ≠ [] →
      (∀ el ∈ poset, el.value ∉ el.relations) →
      handleCheckPoset poset ≠ Verdict.Valid) := by
  constructor
  · intro poset a
    rw [handleAddRelation, if_pos (Or.inr (Or.inr rfl))]
  · intro poset hne hnoself hvalid
    rcases hR : findNonReflexive poset with _ | a
    · rcases poset with _ | ⟨el, rest⟩
      · exact hne rfl
      · exact hnoself el (List.mem_cons_self _ _)
          (findNonReflexive_eq_none.mp hR el (List.mem_cons_self _ _))
    · rw [handleCheckPoset] at hvalid
      simp [hR] at hvalid

/-- Witness for C8 at the builder's initial poset: adding the reflexive pair
`A-A` is rejected, and the (self-loop-free) initial poset is never `Valid`. -/
theorem handleAddRelation_rejects_selfloop_witness :
    handleAddRelation initialPoset "A" "A" = none ∧
    handleCheckPoset initialPoset ≠ Verdict.Valid :=
  ⟨handleAddRelation_rejects_selfloop.1 initialPoset "A",
    handleAddRelation_rejects_selfloop.2 initialPoset (by decide) (by decide)⟩

/-! ## Lattice analyzer (`LatticeGame.tsx`)

The lattice builder stores one entry per element; `connections` lists the
elements this entry points to, which the source comments describe as lying
"above" it in the partial order (`A → B` means `A ≤ B`).  Consequently
*forward* reachability (implemented by the source's `getAllBelow`) follows
the order upward, and *reverse* reachability (the source's `getAllAbove`)
follows it downward — the direction confusion noted in the spec's design
notes.  Both traversals are embedded verbatim under their source names. -/

/-- One adjacency entry of the lattice builder. -/
structure LatticeElement (α : Type) where
  value : α
  connections : List α
deriving DecidableEq

/-- One pass of the `lat.forEach` body inside the `while` loop of
`getAllAbove`: for each entry `el` with `current ∈ el.connections` whose value
is not yet in the visited list, push the value to the visited list and to the
queue.  The accumulator is `(visited so far, values pushed this pass)`. -/
def getAllAboveStepAux (current : α) :
    List (LatticeElement α) → List α × List α → List α × List α
  | [], acc => acc
  | el :: rest, acc =>
    getAllAboveStepAux current rest
      (if current ∈ el.connections ∧ el.value ∉ acc.1 then
        (acc.1 ++ [el.value], acc.2 ++ [el.value])
      else acc)

/-- The full scan of one dequeued node in `getAllAbove`. -/
def getAllAboveStep (lat : List (LatticeElement α)) (current : α) (above : List α) :
    List α × List α :=
  getAllAboveStepAux current lat (above, [])

omit [Inhabited α] in
theorem getAllAboveStepAux_shape (current : α) :
    ∀ (lat : List (LatticeElement α)) (a o : List α),
      ∃ t, getAllAboveStepAux current lat (a, o) = (a ++ t, o ++ t) ∧
        (∀ x ∈ t, x ∈ lat.map (fun el => el.value) ∧ x ∉ a) ∧
        (a.Nodup → (a ++ t).Nodup)
  | [], a, o => ⟨[], by simp [getAllAboveStepAux], by simp, by simp⟩
  | el :: rest, a, o => by
    by_cases hc : current ∈ el.connections ∧ el.value ∉ a
    · obtain ⟨t, h1, h2, h3⟩ :=
        getAllAboveStepAux_shape current rest (a ++ [el.value]) (o ++ [el.value])

      refine ⟨el.value :: t, ?_, ?_, ?_⟩
      · rw [getAllAboveStepAux, if_pos hc, h1]
        simp
      · intro x hx
        rcases List.mem_cons.mp hx with rfl | hx'
        · exact ⟨by simp, hc.2⟩
        · obtain ⟨hu, hna⟩ := h2 x hx'
          refine ⟨by simp only [List.map_cons]; exact List.mem_cons_of_mem _ hu, ?_⟩
          intro hxa
          exact hna (List.mem_append_left _ hxa)
      · intro hnd
        have hnd1 : (a ++ [el.value]).Nodup := by
          simp [List.nodup_append, hnd, hc.2]
        have := h3 hnd1
        rwa [List.append_assoc] at this
    · obtain ⟨t, h1, h2, h3⟩ := getAllAboveStepAux_shape current rest a o
      refine ⟨t, ?_, ?_, h3⟩
      · rw [getAllAboveStepAux, if_neg hc]
        exact h1
      · intro x hx
        obtain ⟨hu, hna⟩ := h2 x hx
        exact ⟨by simp only [List.map_cons]; exact List.mem_cons_of_mem _ hu, hna⟩

omit [Inhabited α] in
theorem getAllAboveStepAux_no_preds (current : α) :
    ∀ (lat : List (LatticeElement α)) (a o : List α),
      (∀ el ∈ lat, current ∉ el.connections) →
      getAllAboveStepAux current lat (a, o) = (a, o)
  | [], a, o, _ => rfl
  | el :: rest, a, o, h => by
    rw [getAllAboveStepAux,
      if_neg (fun hc => h el (List.mem_cons_self _ _) hc.1)]
    exact getAllAboveStepAux_no_preds current rest a o
      (fun el' h' => h el' (List.mem_cons_of_mem _ h'))

omit [Inhabited α] in
/-- Pushing the first member of a fresh non-empty block strictly shrinks the
unvisited part of the universe: the common measure argument of both
breadth-first traversals. -/
theorem bfs_measure_lt {U above t : List α} (ht : t ≠ [])
    (hsub : ∀ y ∈ t, y ∈ U ∧ y ∉ above) :
    (U.toFinset \ (above ++ t).toFinset).card < (U.toFinset \ above.toFinset).card := by
  apply Finset.card_lt_card
  rcases t with _ | ⟨x, t'⟩
  · exact absurd rfl ht
  apply (Finset.ssubset_iff_of_subset ?sub).mpr
  case sub =>
    intro y hy
    simp only [Finset.mem_sdiff, List.mem_toFinset, List.mem_append] at hy ⊢
    exact ⟨hy.1, fun hm => hy.2 (Or.inl hm)⟩
  refine ⟨x, ?_, ?_⟩
  · simp only [Finset.mem_sdiff, List.mem_toFinset]
    exact ⟨(hsub x (by simp)).1, (hsub x (by simp)).2⟩
  · simp only [Finset.mem_sdiff, List.mem_toFinset, List.mem_append]
    intro hy
    exact hy.2 (Or.inr (by simp))

omit [Inhabited α] in
/-- Termination measure argument for one round of the `getAllAbove` loop:
either the step pushed nothing and the queue shrank, or the unvisited part of
the value universe shrank. -/
theorem getAllAboveAux_decreasing (lat : List (LatticeElement α)) (current : α)
    (rest above : List α) :
    Prod.Lex (fun a₁ a₂ : Nat => a₁ < a₂) (fun a₁ a₂ : Nat => a₁ < a₂)
      ((((lat.map (fun el => el.value)).toFinset \
          (getAllAboveStep lat current above).1.toFinset).card),
        (rest ++ (getAllAboveStep lat current above).2).length)
      ((((lat.map (fun el => el.value)).toFinset \ above.toFinset).card),
        (current :: rest).length) := by
  obtain ⟨t, h1, h2, _h3⟩ := getAllAboveStepAux_shape current lat above []
  rw [getAllAboveStep, h1]
  dsimp only
  rcases ht : t with _ | ⟨x, t'⟩
  · simp only [List.append_nil, List.nil_append]
    exact Prod.Lex.right _ (by simp)
  · rw [ht] at h2
    apply Prod.Lex.left
    exact bfs_measure_lt (List.cons_ne_nil x t') h2

/-- The `while (queue.length)` loop of `getAllAbove`, instrumented: `queue`,
`above` (the visited list) and `enq` (every value pushed onto the queue so
far, in push order) evolve together; the result is the final visited list and
the completed push log. -/
def getAllAboveAux (lat : List (LatticeElement α)) (queue above enq : List α) :
    List α × List α :=
  match queue with
  | [] => (above, enq)
  | current :: rest =>
    getAllAboveAux lat (rest ++ (getAllAboveStep lat current above).2)
      (getAllAboveStep lat current above).1
      (enq ++ (getAllAboveStep lat current above).2)
termination_by
  (((lat.map (fun el => el.value)).toFinset \ above.toFinset).card, queue.length)
decreasing_by
  exact getAllAboveAux_decreasing lat _ _ _

/-- Embedding of `getAllAbove(target, lat)`: reverse breadth-first
reachability (who points, transitively, to `target`). -/
def getAllAbove (target : α) (lat : List (LatticeElement α)) : List α :=
  (getAllAboveAux lat [target] [] []).1

/-- The enqueue log of `getAllAbove`, starting with the initial
`queue = [target]`. -/
def getAllAboveTrace (target : α) (lat : List (LatticeElement α)) : List α :=
  target :: (getAllAboveAux lat [target] [] []).2

/-- The `found.connections.forEach` body of `getAllBelow`: push every
connection value not yet visited. -/
def pushFresh : List α → List α × List α → List α × List α
  | [], acc => acc
  | c :: rest, acc =>
    pushFresh rest (if c ∉ acc.1 then (acc.1 ++ [c], acc.2 ++ [c]) else acc)

omit [Inhabited α] in
theorem pushFresh_shape :
    ∀ (cs a o : List α),
      ∃ t, pushFresh cs (a, o) = (a ++ t, o ++ t) ∧
        (∀ x ∈ t, x ∈ cs ∧ x ∉ a) ∧
        (a.Nodup → (a ++ t).Nodup)
  | [], a, o => ⟨[], by simp [pushFresh], by simp, by simp⟩
  | c :: rest, a, o => by
    by_cases hc : c ∉ a
    · obtain ⟨t, h1, h2, h3⟩ := pushFresh_shape rest (a ++ [c]) (o ++ [c])
      refine ⟨c :: t, ?_, ?_, ?_⟩
      · rw [pushFresh, if_pos hc, h1]
        simp
      · intro x hx
        rcases List.mem_cons.mp hx with rfl | hx'
        · exact ⟨by simp, hc⟩
        · obtain ⟨hu, hna⟩ := h2 x hx'
          exact ⟨List.mem_cons_of_mem _ hu, fun hxa => hna (List.mem_append_left _ hxa)⟩
      · intro hnd
        have hnd1 : (a ++ [c]).Nodup := by simp [List.nodup_append, hnd, hc]
        have := h3 hnd1
        rwa [List.append_assoc] at this
    · obtain ⟨t, h1, h2, h3⟩ := pushFresh_shape rest a o
      refine ⟨t, ?_, ?_, h3⟩
      · rw [pushFresh, if_neg hc]
        exact h1
      · intro x hx
        obtain ⟨hu, hna⟩ := h2 x hx
        exact ⟨List.mem_cons_of_mem _ hu, hna⟩

/-- One dequeued node of `getAllBelow`: look the node up in the adjacency
list (`lat.find(el => el.value === current)`); when absent, nothing happens;
when found, push its fresh connection values. -/
def getAllBelowStep (lat : List (LatticeElement α)) (current : α) (below : List α) :
    List α × List α :=
  match lat.find? (fun el => decide (el.value = current)) with
  | none => (below, [])
  | some found => pushFresh found.connections (below, [])

omit [Inhabited α] in
theorem getAllBelowStep_shape (lat : List (LatticeElement α)) (current : α)
    (below : List α) :
    ∃ t, getAllBelowStep lat current below = (below ++ t, t) ∧
      (∀ x ∈ t, x ∈ (lat.map (fun el => el.connections)).flatten ∧ x ∉ below) ∧
      (below.Nodup → (below ++ t).Nodup) := by
  rcases hf : lat.find? (fun el => decide (el.value = current)) with _ | found
  · refine ⟨[], ?_, by simp, by simp⟩
    simp [getAllBelowStep, hf]
  · obtain ⟨t, h1, h2, h3⟩ := pushFresh_shape found.connections below []
    refine ⟨t, ?_, ?_, h3⟩
    · simp only [getAllBelowStep, hf]
      simpa using h1
    intro x hx
    obtain ⟨hu, hna⟩ := h2 x hx
    refine ⟨?_, hna⟩
    exact List.mem_flatten.mpr ⟨found.connections,
      List.mem_map.mpr ⟨found, List.mem_of_find?_eq_some hf, rfl⟩, hu⟩

omit [Inhabited α] in
/-- Termination measure argument for one round of the `getAllBelow` loop. -/
theorem getAllBelowAux_decreasing (lat : List (LatticeElement α)) (current : α)
    (rest below : List α) :
    Prod.Lex (fun a₁ a₂ : Nat => a₁ < a₂) (fun a₁ a₂ : Nat => a₁ < a₂)
      (((((lat.map (fun el => el.connections)).flatten).toFinset \
          (getAllBelowStep lat current below).1.toFinset).card),
        (rest ++ (getAllBelowStep lat current below).2).length)
      (((((lat.map (fun el => el.connections)).flatten).toFinset \
          below.toFinset).card),
        (current :: rest).length) := by
  obtain ⟨t, h1, h2, _h3⟩ := getAllBelowStep_shape lat current below
  rw [h1]
  dsimp only
  rcases ht : t with _ | ⟨x, t'⟩
  · simp only [List.append_nil, List.nil_append]
    exact Prod.Lex.right _ (by simp)
  · rw [ht] at h2
    apply Prod.Lex.left
    exact bfs_measure_lt (List.cons_ne_nil x t') h2

/-- The `while (queue.length)` loop of `getAllBelow`, instrumented like
`getAllAboveAux`. -/
def getAllBelowAux (lat : List (LatticeElement α)) (queue below enq : List α) :
    List α × List α :=
  match queue with
  | [] => (below, enq)
  | current :: rest =>
    getAllBelowAux lat (rest ++ (getAllBelowStep lat current below).2)
      (getAllBelowStep lat current below).1
      (enq ++ (getAllBelowStep lat current below).2)
termination_by
  ((((lat.map (fun el => el.connections)).flatten).toFinset \ below.toFinset).card,
    queue.length)
decreasing_by
  exact getAllBelowAux_decreasing lat _ _ _

/-- Embedding of `getAllBelow(target, lat)`: forward breadth-first
reachability along `connections`. -/
def getAllBelow (target : α) (lat : List (LatticeElement α)) : List α :=
  (getAllBelowAux lat [target] [] []).1

/-- The enqueue log of `getAllBelow`. -/
def getAllBelowTrace (target : α) (lat : List (LatticeElement α)) : List α :=
  target :: (getAllBelowAux lat [target] [] []).2

omit [Inhabited α] in
theorem getAllAboveAux_nil (lat : List (LatticeElement α)) (a e : List α) :
    getAllAboveAux lat [] a e = (a, e) := by
  rw [getAllAboveAux.eq_def]

omit [Inhabited α] in
theorem getAllAboveAux_cons (lat : List (LatticeElement α)) (c : α) (r a e : List α) :
    getAllAboveAux lat (c :: r) a e =
      getAllAboveAux lat (r ++ (getAllAboveStep lat c a).2) (getAllAboveStep lat c a).1
        (e ++ (getAllAboveStep lat c a).2) := by
  rw [getAllAboveAux.eq_def]

omit [Inhabited α] in
theorem getAllBelowAux_nil (lat : List (LatticeElement α)) (a e : List α) :
    getAllBelowAux lat [] a e = (a, e) := by
  rw [getAllBelowAux.eq_def]

omit [Inhabited α] in
theorem getAllBelowAux_cons (lat : List (LatticeElement α)) (c : α) (r a e : List α) :
    getAllBelowAux lat (c :: r) a e =
      getAllBelowAux lat (r ++ (getAllBelowStep lat c a).2) (getAllBelowStep lat c a).1
        (e ++ (getAllBelowStep lat c a).2) := by
  rw [getAllBelowAux.eq_def]

omit [Inhabited α] in
/-- Global invariant of the instrumented `getAllAbove` loop: the visited list
grows by exactly the block of values enqueued after the start, every such
value is a declared element value not previously visited, and the visited
list never acquires duplicates. -/
theorem getAllAboveAux_shape (lat : List (LatticeElement α)) :
    ∀ (queue above enq : List α),
      ∃ t, getAllAboveAux lat queue above enq = (above ++ t, enq ++ t) ∧
        (∀ x ∈ t, x ∈ lat.map (fun el => el.value) ∧ x ∉ above) ∧
        (above.Nodup → (above ++ t).Nodup) := by
  intro queue above enq
  induction queue, above, enq using getAllAboveAux.induct lat with
  | case1 above enq =>
    exact ⟨[], by rw [getAllAboveAux_nil]; simp, by simp, by simp⟩
  | case2 above enq current rest ih =>
    obtain ⟨t0, s1, s2, s3⟩ := getAllAboveStepAux_shape current lat above []
    have hstep : getAllAboveStep lat current above = (above ++ t0, t0) := by
      rw [getAllAboveStep, s1]
      simp
    obtain ⟨t1, k1, k2, k3⟩ := ih
    rw [hstep] at k1 k2 k3
    dsimp only at k1 k2 k3
    refine ⟨t0 ++ t1, ?_, ?_, ?_⟩
    · rw [getAllAboveAux_cons, hstep]
      dsimp only
      rw [k1]
      simp
    · intro x hx
      rcases List.mem_append.mp hx with hx' | hx'
      · exact s2 x hx'
      · obtain ⟨hu, hna⟩ := k2 x hx'
        exact ⟨hu, fun hv => hna (List.mem_append_left _ hv)⟩
    · intro hnd
      have h1 : (above ++ t0).Nodup := s3 hnd
      have := k3 h1
      rwa [List.append_assoc] at this

omit [Inhabited α] in
/-- Global invariant of the instrumented `getAllBelow` loop. -/
theorem getAllBelowAux_shape (lat : List (LatticeElement α)) :
    ∀ (queue below enq : List α),
      ∃ t, getAllBelowAux lat queue below enq = (below ++ t, enq ++ t) ∧
        (∀ x ∈ t, x ∈ (lat.map (fun el => el.connections)).flatten ∧ x ∉ below) ∧
        (below.Nodup → (below ++ t).Nodup) := by
  intro queue below enq
  induction queue, below, enq using getAllBelowAux.induct lat with
  | case1 below enq =>
    exact ⟨[], by rw [getAllBelowAux_nil]; simp, by simp, by simp⟩
  | case2 below enq current rest ih =>
    obtain ⟨t0, s1, s2, s3⟩ := getAllBelowStep_shape lat current below
    obtain ⟨t1, k1, k2, k3⟩ := ih
    rw [s1] at k1 k2 k3
    dsimp only at k1 k2 k3
    refine ⟨t0 ++ t1, ?_, ?_, ?_⟩
    · rw [getAllBelowAux_cons, s1]
      dsimp only
      rw [k1]
      simp
    · intro x hx
      rcases List.mem_append.mp hx with hx' | hx'
      · exact s2 x hx'
      · obtain ⟨hu, hna⟩ := k2 x hx'
        exact ⟨hu, fun hv => hna (List.mem_append_left _ hv)⟩
    · intro hnd
      have h1 : (below ++ t0).Nodup := s3 hnd
      have := k3 h1
      rwa [List.append_assoc] at this

omit [Inhabited α] in
/-- The visited list of `getAllAbove` never repeats a value, and every value
in it is a declared element value; the enqueue log after the start is exactly
the visited list. -/
theorem getAllAbove_shape (target : α) (lat : List (LatticeElement α)) :
    getAllAboveTrace target lat = target :: getAllAbove target lat ∧
    (getAllAbove target lat).Nodup ∧
    (∀ x ∈ getAllAbove target lat, x ∈ lat.map (fun el => el.value)) := by
  obtain ⟨t, h1, h2, h3⟩ := getAllAboveAux_shape lat [target] [] []
  rw [getAllAboveTrace, getAllAbove, h1]
  refine ⟨by simp, by simpa using h3 List.nodup_nil, ?_⟩
  intro x hx
  simp only [List.nil_append] at hx
  exact (h2 x hx).1

omit [Inhabited α] in
/-- Counterpart of `getAllAbove_shape` for the forward traversal; visited
values come from the connection lists. -/
theorem getAllBelow_shape (target : α) (lat : List (LatticeElement α)) :
    getAllBelowTrace target lat = target :: getAllBelow target lat ∧
    (getAllBelow target lat).Nodup ∧
    (∀ x ∈ getAllBelow target lat, x ∈ (lat.map (fun el => el.connections)).flatten) := by
  obtain ⟨t, h1, h2, h3⟩ := getAllBelowAux_shape lat [target] [] []
  rw [getAllBelowTrace, getAllBelow, h1]
  refine ⟨by simp, by simpa using h3 List.nodup_nil, ?_⟩
  intro x hx
  simp only [List.nil_append] at hx
  exact (h2 x hx).1

omit [Inhabited α] in
/-- A start element that no connection list mentions has no ancestors. -/
theorem getAllAbove_absent (target : α) (lat : List (LatticeElement α))
    (h : ∀ el ∈ lat, target ∉ el.connections) : getAllAbove target lat = [] := by
  have hstep : getAllAboveStep lat target [] = ([], []) := by
    rw [getAllAboveStep]
    exact getAllAboveStepAux_no_preds target lat [] [] h
  rw [getAllAbove, getAllAboveAux_cons, hstep]
  dsimp only
  simp only [List.append_nil, List.nil_append]
  rw [getAllAboveAux_nil]

omit [Inhabited α] in
/-- A start element that is not a declared value has no descendants: the
lookup `lat.find(el => el.value === current)` misses and nothing is pushed. -/
theorem getAllBelow_absent (target : α) (lat : List (LatticeElement α))
    (h : target ∉ lat.map (fun el => el.value)) : getAllBelow target lat = [] := by
  have hfind : lat.find? (fun el => decide (el.value = target)) = none := by
    rw [List.find?_eq_none]
    intro el hel hdec
    exact h (List.mem_map.mpr ⟨el, hel, of_decide_eq_true hdec⟩)
  have hstep : getAllBelowStep lat target [] = ([], []) := by
    rw [getAllBelowStep, hfind]
  rw [getAllBelow, getAllBelowAux_cons, hstep]
  dsimp only
  simp only [List.append_nil, List.nil_append]
  rw [getAllBelowAux_nil]

/-- Embedding of `findSupremum(a, b, lat)`: build the two reverse-reachability
closures including the endpoints, intersect them in enumeration order, and
return the first member (`intersection[0]`), `null` when empty. -/
def findSupremum (a b : α) (lat : List (LatticeElement α)) : Option α :=
  ((a :: getAllAbove a lat).filter
    (fun x => decide (x ∈ b :: getAllAbove b lat))).head?

/-- Embedding of `findInfimum(a, b, lat)`: same with the forward closures. -/
def findInfimum (a b : α) (lat : List (LatticeElement α)) : Option α :=
  ((a :: getAllBelow a lat).filter
    (fun x => decide (x ∈ b :: getAllBelow b lat))).head?

/-- The unordered pairs `(lattice[i].value, lattice[j].value)` with `i < j`,
in the enumeration order of the double loop of `handleCheckBasicLattice`. -/
def allPairs : List (LatticeElement α) → List (α × α)
  | [] => []
  | el :: rest => rest.map (fun el2 => (el.value, el2.value)) ++ allPairs rest

/-- Embedding of `handleCheckBasicLattice`: scan the pairs in order and report
the first pair missing a supremum or an infimum (`none` = every pair has
both, the structure is declared a lattice). -/
def handleCheckBasicLattice (lat : List (LatticeElement α)) : Option (α × α) :=
  (allPairs lat).find? (fun p =>
    (findSupremum p.1 p.2 lat).isNone || (findInfimum p.1 p.2 lat).isNone)

/-- Bottom-candidate test of `handleCheckBounded`:
`new Set(getAllBelow(el.value, lattice)).add(el.value).size === lattice.length`. -/
def isBottomCandidate (lat : List (LatticeElement α)) (v : α) : Bool :=
  decide ((if v ∈ getAllBelow v lat then getAllBelow v lat
    else getAllBelow v lat ++ [v]).length = lat.length)

/-- Top-candidate test of `handleCheckBounded`: `el` is a top candidate iff
for every other entry, `el.value` lies in `{other.value} ∪ getAllBelow(other)`. -/
def isTopCandidate (lat : List (LatticeElement α)) (v : α) : Bool :=
  lat.all (fun other =>
    decide (other.value = v) || decide (v ∈ other.value :: getAllBelow other.value lat))

/-- The bottom candidates, in entry-enumeration order. -/
def bottomCandidates (lat : List (LatticeElement α)) : List α :=
  (lat.map (fun el => el.value)).filter (fun v => isBottomCandidate lat v)

/-- The top candidates, in entry-enumeration order. -/
def topCandidates (lat : List (LatticeElement α)) : List α :=
  (lat.map (fun el => el.value)).filter (fun v => isTopCandidate lat v)

/-- Verdict of the bounded-lattice check. -/
inductive BoundedVerdict (α : Type) where
  | Bounded (bottom top : α)
  | Unbounded
  | Ambiguous (bottoms tops : List α)
deriving DecidableEq

/-- Embedding of `handleCheckBounded`: `Bounded` when there is exactly one
bottom and one top candidate, otherwise `Unbounded` when either candidate
list is empty, otherwise `Ambiguous` with both candidate lists. -/
def handleCheckBounded (lat : List (LatticeElement α)) : BoundedVerdict α :=
  if (bottomCandidates lat).length = 1 ∧ (topCandidates lat).length = 1 then
    .Bounded ((bottomCandidates lat).getD 0 default) ((topCandidates lat).getD 0 default)
  else if (bottomCandidates lat).length = 0 ∨ (topCandidates lat).length = 0 then
    .Unbounded
  else
    .Ambiguous (bottomCandidates lat) (topCandidates lat)

/-- The initial lattice of the builder UI (`A→B,C; B→D; C→D; D→∅`), the
spec's worked diamond example. -/
def initialLattice : List (LatticeElement String) :=
  [⟨"A", ["B", "C"]⟩, ⟨"B", ["D"]⟩, ⟨"C", ["D"]⟩, ⟨"D", []⟩]

/-- The head of a filtered list is its first element satisfying the
predicate: it belongs to the list, satisfies the predicate, and everything
before it fails the predicate. -/
theorem head?_filter_some {β : Type} {l : List β} {p : β → Bool} {x : β}
    (h : (l.filter p).head? = some x) :
    x ∈ l ∧ p x = true ∧ ∃ pre post, l = pre ++ x :: post ∧ ∀ y ∈ pre, ¬ p y := by
  induction l with
  | nil => simp at h
  | cons y ys ih =>
    by_cases hp : p y
    · rw [List.filter_cons_of_pos hp] at h
      obtain rfl : y = x := by simpa using h
      exact ⟨by simp, hp, [], ys, by simp, by simp⟩
    · rw [List.filter_cons_of_neg (by simpa using hp)] at h
      obtain ⟨hmem, hpx, pre, post, heq, hpre⟩ := ih h
      refine ⟨List.mem_cons_of_mem _ hmem, hpx, y :: pre, post, by simp [heq], ?_⟩
      intro z hz
      rcases List.mem_cons.mp hz with rfl | hz'
      · exact hp
      · exact hpre z hz'

/-- A successful `find?` splits the list at the first hit. -/
theorem find?_some_split {β : Type} {l : List β} {p : β → Bool} {x : β}
    (h : l.find? p = some x) :
    p x = true ∧ ∃ pre post, l = pre ++ x :: post ∧ ∀ y ∈ pre, ¬ p y := by
  induction l with
  | nil => simp at h
  | cons y ys ih =>
    by_cases hp : p y
    · rw [List.find?_cons_of_pos _ hp] at h
      obtain rfl : y = x := by simpa using h
      exact ⟨hp, [], ys, by simp, by simp⟩
    · rw [List.find?_cons_of_neg _ (by simpa using hp)] at h
      obtain ⟨hpx, pre, post, heq, hpre⟩ := ih h
      refine ⟨hpx, y :: pre, post, by simp [heq], ?_⟩
      intro z hz
      rcases List.mem_cons.mp hz with rfl | hz'
      · exact hp
      · exact hpre z hz'

omit [Inhabited α] in
theorem findSupremum_eq_none_iff (lat : List (LatticeElement α)) (a b : α) :
    findSupremum a b lat = none ↔
      ∀ x ∈ a :: getAllAbove a lat, x ∉ b :: getAllAbove b lat := by
  rw [findSupremum, List.head?_eq_none_iff, List.filter_eq_nil_iff]
  simp only [decide_eq_true_eq]

omit [Inhabited α] in
theorem findInfimum_eq_none_iff (lat : List (LatticeElement α)) (a b : α) :
    findInfimum a b lat = none ↔
      ∀ x ∈ a :: getAllBelow a lat, x ∉ b :: getAllBelow b lat := by
  rw [findInfimum, List.head?_eq_none_iff, List.filter_eq_nil_iff]
  simp only [decide_eq_true_eq]

/-- C3 (amended): on a pair with common ancestors/descendants the analyzer
does not return the minimal (resp. maximal) element of the closure
intersection; it returns the *first* element of the first argument's closure
list that also lies in the second's closure — an arbitrary member of the
intersection in traversal order (and, because the source's traversals are
direction-swapped, `findSupremum` intersects the reverse-reachability
closures).  `none` is returned exactly when the intersection is empty; no
`NoUniqueBound` verdict exists. -/
theorem findSupremum_findInfimum_first (lat : List (LatticeElement α)) (a b : α) :
    (∀ s, findSupremum a b lat = some s →
      s ∈ a :: getAllAbove a lat ∧ s ∈ b :: getAllAbove b lat ∧
      ∃ pre post, a :: getAllAbove a lat = pre ++ s :: post ∧
        ∀ x ∈ pre, x ∉ b :: getAllAbove b lat) ∧
    (findSupremum a b lat = none ↔
      ∀ x ∈ a :: getAllAbove a lat, x ∉ b :: getAllAbove b lat) ∧
    (∀ s, findInfimum a b lat = some s →
      s ∈ a :: getAllBelow a lat ∧ s ∈ b :: getAllBelow b lat ∧
      ∃ pre post, a :: getAllBelow a lat = pre ++ s :: post ∧
        ∀ x ∈ pre, x ∉ b :: getAllBelow b lat) ∧
    (findInfimum a b lat = none ↔
      ∀ x ∈ a :: getAllBelow a lat, x ∉ b :: getAllBelow b lat) := by
  refine ⟨?_, findSupremum_eq_none_iff lat a b, ?_, findInfimum_eq_none_iff lat a b⟩
  · intro s hs
    obtain ⟨hmem, hpx, pre, post, heq, hpre⟩ := head?_filter_some hs
    refine ⟨hmem, by simpa using hpx, pre, post, heq, ?_⟩
    intro x hx
    have := hpre x hx
    simpa using this
  · intro s hs
    obtain ⟨hmem, hpx, pre, post, heq, hpre⟩ := head?_filter_some hs
    refine ⟨hmem, by simpa using hpx, pre, post, heq, ?_⟩
    intro x hx
    have := hpre x hx
    simpa using this

/-- C1: `handleCheckBasicLattice` declares the structure a lattice (`none`)
iff every unordered pair of element values has a non-empty ancestor-closure
intersection and a non-empty descendant-closure intersection, each closure
including the element itself.  In the source's data model `connections` point
upward, so the ancestor closure (reachable upward) is computed by
`getAllBelow` and the descendant closure by `getAllAbove`; the source's
`findSupremum` happens to test the descendant intersection and `findInfimum`
the ancestor intersection, so the conjunction per pair — and hence the
lattice verdict and the failing pair — is exactly the claimed one.  A
reported counterexample is the first failing pair in element-set enumeration
order. -/
theorem handleCheckBasicLattice_spec (lat : List (LatticeElement α)) :
    (handleCheckBasicLattice lat = none ↔ ∀ p ∈ allPairs lat,
      (∃ x, x ∈ p.1 :: getAllBelow p.1 lat ∧ x ∈ p.2 :: getAllBelow p.2 lat) ∧
      (∃ x, x ∈ p.1 :: getAllAbove p.1 lat ∧ x ∈ p.2 :: getAllAbove p.2 lat)) ∧
    (∀ a b, handleCheckBasicLattice lat = some (a, b) →
      (a, b) ∈ allPairs lat ∧
      ¬((∃ x, x ∈ a :: getAllBelow a lat ∧ x ∈ b :: getAllBelow b lat) ∧
        (∃ x, x ∈ a :: getAllAbove a lat ∧ x ∈ b :: getAllAbove b lat)) ∧
      ∃ pre post, allPairs lat = pre ++ (a, b) :: post ∧
        ∀ q ∈ pre,
          (∃ x, x ∈ q.1 :: getAllBelow q.1 lat ∧ x ∈ q.2 :: getAllBelow q.2 lat) ∧
          (∃ x, x ∈ q.1 :: getAllAbove q.1 lat ∧ x ∈ q.2 :: getAllAbove q.2 lat)) := by
  have hpred : ∀ p : α × α,
      (((findSupremum p.1 p.2 lat).isNone || (findInfimum p.1 p.2 lat).isNone) = false) ↔
      ((∃ x, x ∈ p.1 :: getAllBelow p.1 lat ∧ x ∈ p.2 :: getAllBelow p.2 lat) ∧
        (∃ x, x ∈ p.1 :: getAllAbove p.1 lat ∧ x ∈ p.2 :: getAllAbove p.2 lat)) := by
    intro p
    rw [Bool.or_eq_false_iff]
    rw [Option.isNone_eq_false_iff, Option.isNone_eq_false_iff,
      Option.isSome_iff_ne_none, Option.isSome_iff_ne_none, Ne, Ne,
      findSupremum_eq_none_iff, findInfimum_eq_none_iff]
    push_neg
    constructor
    · rintro ⟨⟨x, hx1, hx2⟩, ⟨y, hy1, hy2⟩⟩
      exact ⟨⟨y, hy1, hy2⟩, ⟨x, hx1, hx2⟩⟩
    · rintro ⟨⟨y, hy1, hy2⟩, ⟨x, hx1, hx2⟩⟩
      exact ⟨⟨x, hx1, hx2⟩, ⟨y, hy1, hy2⟩⟩
  constructor
  · rw [handleCheckBasicLattice, List.find?_eq_none]
    constructor
    · intro H p hp
      exact (hpred p).mp (Bool.not_eq_true _ ▸ H p hp)
    · intro H p hp
      rw [(hpred p).mpr (H p hp)]
      simp
  · intro a b h
    have hmem : (a, b) ∈ allPairs lat := List.mem_of_find?_eq_some h
    obtain ⟨hpx, pre, post, heq, hpre⟩ := find?_some_split h
    refine ⟨hmem, ?_, pre, post, heq, ?_⟩
    · intro hcontra
      have := (hpred (a, b)).mpr hcontra
      rw [this] at hpx
      exact Bool.false_ne_true hpx
    · intro q hq
      exact (hpred q).mp (Bool.not_eq_true _ ▸ hpre q hq)

omit [Inhabited α] in
/-- Under the data-model invariants (unique values, declared targets) the
reachability closures stay inside the declared value set. -/
theorem getAllBelow_subset_values (lat : List (LatticeElement α)) (v : α)
    (htargets : ∀ el ∈ lat, ∀ c ∈ el.connections, c ∈ lat.map (fun el => el.value)) :
    ∀ x ∈ getAllBelow v lat, x ∈ lat.map (fun el => el.value) := by
  intro x hx
  have := (getAllBelow_shape v lat).2.2 x hx
  obtain ⟨l, hl, hxl⟩ := List.mem_flatten.mp this
  obtain ⟨el, hel, rfl⟩ := List.mem_map.mp hl
  exact htargets el hel x hxl

/-- C6 (amended): under the data-model invariants, an element is a bottom
candidate iff its forward closure plus itself covers exactly the element set,
and a top candidate iff it belongs to every other element's forward closure
plus that element; the verdict is `Bounded(bottom, top)` iff exactly one
candidate of each kind exists, `Unbounded` iff either candidate list is
empty, and `Ambiguous(bottoms, tops)` iff both lists are non-empty but not
both singletons — emptiness takes precedence over ambiguity, so a structure
with no bottom and two tops is reported `Unbounded`, not `Ambiguous`. -/
theorem handleCheckBounded_spec (lat : List (LatticeElement α))
    (hnd : (lat.map (fun el => el.value)).Nodup)
    (htargets : ∀ el ∈ lat, ∀ c ∈ el.connections, c ∈ lat.map (fun el => el.value)) :
    (∀ v, v ∈ bottomCandidates lat ↔ v ∈ lat.map (fun el => el.value) ∧
      ∀ w, (w ∈ v :: getAllBelow v lat ↔ w ∈ lat.map (fun el => el.value))) ∧
    (∀ v, v ∈ topCandidates lat ↔ v ∈ lat.map (fun el => el.value) ∧
      ∀ el ∈ lat, el.value ≠ v → v ∈ el.value :: getAllBelow el.value lat) ∧
    (∀ x y, handleCheckBounded lat = BoundedVerdict.Bounded x y ↔
      bottomCandidates lat = [x] ∧ topCandidates lat = [y]) ∧
    (handleCheckBounded lat = BoundedVerdict.Unbounded ↔
      bottomCandidates lat = [] ∨ topCandidates lat = []) ∧
    (∀ bs ts, handleCheckBounded lat = BoundedVerdict.Ambiguous bs ts ↔
      bs = bottomCandidates lat ∧ ts = topCandidates lat ∧
      bs ≠ [] ∧ ts ≠ [] ∧ ¬(bs.length = 1 ∧ ts.length = 1)) := by
  have hvlen : (lat.map (fun el => el.value)).length = lat.length := List.length_map _ _
  refine ⟨?_, ?_, ?_, ?_, ?_⟩
  · intro v
    rw [bottomCandidates, List.mem_filter]
    have hrnd : (getAllBelow v lat).Nodup := (getAllBelow_shape v lat).2.1
    have hrsub := getAllBelow_subset_values lat v htargets
    constructor
    · rintro ⟨hvv, hbc⟩
      rw [isBottomCandidate, decide_eq_true_eq] at hbc
      refine ⟨hvv, ?_⟩
      have hSnd : (if v ∈ getAllBelow v lat then getAllBelow v lat
          else getAllBelow v lat ++ [v]).Nodup := by
        split
        · exact hrnd
        · next hni => simp [List.nodup_append, hrnd, hni]
      have hSsub : ∀ x ∈ (if v ∈ getAllBelow v lat then getAllBelow v lat
          else getAllBelow v lat ++ [v]), x ∈ lat.map (fun el => el.value) := by
        intro x hx
        split at hx
        · exact hrsub x hx
        · rcases List.mem_append.mp hx with hx' | hx'
          · exact hrsub x hx'
          · simp only [List.mem_singleton] at hx'
            exact hx' ▸ hvv
      have hperm : List.Perm (if v ∈ getAllBelow v lat then getAllBelow v lat
          else getAllBelow v lat ++ [v]) (lat.map (fun el => el.value)) :=
        (List.subperm_of_subset hSnd hSsub).perm_of_length_le
          (le_of_eq (by rw [hbc, hvlen]))
      intro w
      have hSmem : (w ∈ (if v ∈ getAllBelow v lat then getAllBelow v lat
          else getAllBelow v lat ++ [v])) ↔ w ∈ v :: getAllBelow v lat := by
        split
        · next hvi =>
          simp only [List.mem_cons]
          constructor
          · intro hw
            exact Or.inr hw
          · rintro (rfl | hw)
            · exact hvi
            · exact hw
        · simp only [List.mem_append, List.mem_singleton, List.mem_cons]
          tauto
      rw [← hSmem, hperm.mem_iff]
    · rintro ⟨hvv, hiff⟩
      refine ⟨hvv, ?_⟩
      rw [isBottomCandidate, decide_eq_true_eq]
      have hSnd : (if v ∈ getAllBelow v lat then getAllBelow v lat
          else getAllBelow v lat ++ [v]).Nodup := by
        split
        · exact hrnd
        · next hni => simp [List.nodup_append, hrnd, hni]
      have hSmem : ∀ w, (w ∈ (if v ∈ getAllBelow v lat then getAllBelow v lat
          else getAllBelow v lat ++ [v])) ↔ w ∈ v :: getAllBelow v lat := by
        intro w
        split
        · next hvi =>
          simp only [List.mem_cons]
          constructor
          · intro hw
            exact Or.inr hw
          · rintro (rfl | hw)
            · exact hvi
            · exact hw
        · simp only [List.mem_append, List.mem_singleton, List.mem_cons]
          tauto
      have hsub1 : (if v ∈ getAllBelow v lat then getAllBelow v lat
          else getAllBelow v lat ++ [v]) ⊆ lat.map (fun el => el.value) := by
        intro x hx
        exact (hiff x).mp ((hSmem x).mp hx)
      have hsub2 : lat.map (fun el => el.value) ⊆
          (if v ∈ getAllBelow v lat then getAllBelow v lat
            else getAllBelow v lat ++ [v]) := by
        intro x hx
        exact (hSmem x).mpr ((hiff x).mpr hx)
      have h1 := (List.subperm_of_subset hSnd hsub1).length_le
      have h2 := (List.subperm_of_subset hnd hsub2).length_le
      rw [hvlen] at h1 h2
      omega
  · intro v
    rw [topCandidates, List.mem_filter, isTopCandidate, List.all_eq_true]
    constructor
    · rintro ⟨hvv, hall⟩
      refine ⟨hvv, ?_⟩
      intro el hel hne
      have := hall el hel
      rcases Bool.or_eq_true_iff.mp this with hl | hr
      · exact absurd (of_decide_eq_true hl) hne
      · exact of_decide_eq_true hr
    · rintro ⟨hvv, H⟩
      refine ⟨hvv, ?_⟩
      intro el hel
      by_cases hne : el.value = v
      · simp [hne]
      · simp only [Bool.or_eq_true_iff, decide_eq_true_eq]
        exact Or.inr (H el hel hne)
  · intro x y
    by_cases h1 : (bottomCandidates lat).length = 1 ∧ (topCandidates lat).length = 1
    · rw [handleCheckBounded, if_pos h1]
      obtain ⟨b0, hb0⟩ := List.length_eq_one.mp h1.1
      obtain ⟨t0, ht0⟩ := List.length_eq_one.mp h1.2
      rw [hb0, ht0]
      simp only [List.getD_cons_zero]
      constructor
      · intro heq
        cases heq
        exact ⟨rfl, rfl⟩
      · rintro ⟨hx, hy⟩
        cases hx
        cases hy
        rfl
    · rw [handleCheckBounded, if_neg h1]
      constructor
      · intro heq
        split at heq <;> cases heq
      · rintro ⟨hx, hy⟩
        rw [hx, hy] at h1
        simp at h1
  · by_cases h1 : (bottomCandidates lat).length = 1 ∧ (topCandidates lat).length = 1
    · rw [handleCheckBounded, if_pos h1]
      constructor
      · intro heq
        cases heq
      · rintro (hb | ht)
        · rw [hb] at h1
          simp at h1
        · rw [ht] at h1
          simp at h1
    · rw [handleCheckBounded, if_neg h1]
      by_cases h2 : (bottomCandidates lat).length = 0 ∨ (topCandidates lat).length = 0
      · rw [if_pos h2]
        simp only [List.length_eq_zero] at h2
        exact ⟨fun _ => h2, fun _ => rfl⟩
      · rw [if_neg h2]
        simp only [List.length_eq_zero] at h2
        push_neg at h2
        constructor
        · intro heq
          cases heq
        · rintro (hb | ht)
          · exact absurd hb h2.1
          · exact absurd ht h2.2
  · intro bs ts
    by_cases h1 : (bottomCandidates lat).length = 1 ∧ (topCandidates lat).length = 1
    · rw [handleCheckBounded, if_pos h1]
      constructor
      · intro heq
        cases heq
      · rintro ⟨rfl, rfl, _, _, hcon⟩
        exact absurd h1 hcon
    · rw [handleCheckBounded, if_neg h1]
      by_cases h2 : (bottomCandidates lat).length = 0 ∨ (topCandidates lat).length = 0
      · rw [if_pos h2]
        constructor
        · intro heq
          cases heq
        · rintro ⟨rfl, rfl, hb, ht, _⟩
          rcases h2 with h2' | h2'
          · exact absurd (List.length_eq_zero.mp h2') hb
          · exact absurd (List.length_eq_zero.mp h2') ht
      · rw [if_neg h2]
        push_neg at h2
        constructor
        · intro heq
          cases heq
          refine ⟨rfl, rfl, ?_, ?_, h1⟩
          · intro hb
            exact h2.1 (by rw [hb]; rfl)
          · intro ht
            exact h2.2 (by rw [ht]; rfl)
        · rintro ⟨rfl, rfl, _, _, _⟩
          rfl

omit [Inhabited α] in
/-- C9 (amended): both traversals terminate, with the total number of loop
iterations (= enqueue-log length) bounded by the size of the relevant
universe plus one; the visited list never contains a value twice and every
node other than the start is enqueued at most once, while the start itself
may be enqueued a second time when it lies on a cycle (count ≤ 2); a start
element that no connection list mentions has an empty reverse-reachability
set, and a start element that is not a declared value has an empty
forward-reachability set. -/
theorem traversal_termination_spec (lat : List (LatticeElement α)) (target : α) :
    (getAllAboveTrace target lat).length ≤ lat.length + 1 ∧
    (getAllAbove target lat).Nodup ∧
    (∀ v, v ≠ target → (getAllAboveTrace target lat).count v ≤ 1) ∧
    ((getAllAboveTrace target lat).count target ≤ 2) ∧
    (getAllBelowTrace target lat).length ≤
      ((lat.map (fun el => el.connections)).flatten).length + 1 ∧
    (getAllBelow target lat).Nodup ∧
    (∀ v, v ≠ target → (getAllBelowTrace target lat).count v ≤ 1) ∧
    ((getAllBelowTrace target lat).count target ≤ 2) ∧
    ((∀ el ∈ lat, target ∉ el.connections) → getAllAbove target lat = []) ∧
    (target ∉ lat.map (fun el => el.value) → getAllBelow target lat = []) := by
  obtain ⟨htr, hnd, hsub⟩ := getAllAbove_shape target lat
  obtain ⟨htr', hnd', hsub'⟩ := getAllBelow_shape target lat
  have hlen : (getAllAbove target lat).length ≤ lat.length := by
    have := (List.subperm_of_subset hnd hsub).length_le
    rwa [List.length_map] at this
  have hlen' : (getAllBelow target lat).length ≤
      ((lat.map (fun el => el.connections)).flatten).length :=
    (List.subperm_of_subset hnd' hsub').length_le
  refine ⟨?_, hnd, ?_, ?_, ?_, hnd', ?_, ?_,
    getAllAbove_absent target lat, getAllBelow_absent target lat⟩
  · rw [htr]
    simpa using hlen
  · intro v hv
    rw [htr, List.count_cons]
    have h1 : (getAllAbove target lat).count v ≤ 1 :=
      List.nodup_iff_count_le_one.mp hnd v
    split
    · next heq => exact absurd (Eq.symm (by simpa using heq)) hv
    · omega
  · rw [htr, List.count_cons]
    have h1 : (getAllAbove target lat).count target ≤ 1 :=
      List.nodup_iff_count_le_one.mp hnd target
    split <;> omega
  · rw [htr']
    simpa using hlen'
  · intro v hv
    rw [htr', List.count_cons]
    have h1 : (getAllBelow target lat).count v ≤ 1 :=
      List.nodup_iff_count_le_one.mp hnd' v
    split
    · next heq => exact absurd (Eq.symm (by simpa using heq)) hv
    · omega
  · rw [htr', List.count_cons]
    have h1 : (getAllBelow target lat).count target ≤ 1 :=
      List.nodup_iff_count_le_one.mp hnd' target
    split <;> omega

/-- Evaluation of the lattice verdict on the two-element antichain: the pair
`(A, B)` has no common closure member, so it is reported. -/
theorem handleCheckBasicLattice_antichain_eval :
    handleCheckBasicLattice [⟨"A", []⟩, ⟨"B", ([] : List String)⟩] = some ("A", "B") := by
  simp [handleCheckBasicLattice, allPairs, findSupremum, findInfimum, getAllAbove,
    getAllBelow, getAllAboveAux_cons, getAllAboveAux_nil, getAllBelowAux_cons,
    getAllBelowAux_nil, getAllAboveStep, getAllAboveStepAux, getAllBelowStep,
    pushFresh, List.find?]

/-- Witness for C1, applying the specification theorem at the two-element
antichain, whose single pair is reported as the counterexample. -/
theorem handleCheckBasicLattice_spec_witness :
    ("A", "B") ∈ allPairs [⟨"A", []⟩, ⟨"B", ([] : List String)⟩] :=
  ((handleCheckBasicLattice_spec [⟨"A", []⟩, ⟨"B", []⟩]).2 "A" "B"
    handleCheckBasicLattice_antichain_eval).1

/-- Witness for C3 (amended) at the chain `A→B→C`: the returned supremum of
`(A, B)` is the first common element of the reverse closures. -/
theorem findSupremum_findInfimum_first_witness :
    findSupremum "A" "B" [⟨"A", ["B"]⟩, ⟨"B", ["C"]⟩, ⟨"C", ([] : List String)⟩] =
      some "A" →
    "A" ∈ "A" :: getAllAbove "A" [⟨"A", ["B"]⟩, ⟨"B", ["C"]⟩, ⟨"C", ([] : List String)⟩] :=
  fun h =>
    (((findSupremum_findInfimum_first
      [⟨"A", ["B"]⟩, ⟨"B", ["C"]⟩, ⟨"C", ([] : List String)⟩] "A" "B").1 "A") h).1

/-- C3 counterexample, on the chain `A ≤ B ≤ C` (connections point upward):
the pair `(A, B)` has two distinct common ancestors `B` and `C` (upward
closures, here computed by the forward traversal `getAllBelow`), yet the
analyzer returns `A` as the supremum — and `A` is not even a member of the
common-ancestor set, let alone its minimal element. -/
theorem findSupremum_not_minimal_counterexample :
    ("B" ∈ "A" :: getAllBelow "A" [⟨"A", ["B"]⟩, ⟨"B", ["C"]⟩, ⟨"C", ([] : List String)⟩] ∧
      "B" ∈ "B" :: getAllBelow "B" [⟨"A", ["B"]⟩, ⟨"B", ["C"]⟩, ⟨"C", ([] : List String)⟩]) ∧
    ("C" ∈ "A" :: getAllBelow "A" [⟨"A", ["B"]⟩, ⟨"B", ["C"]⟩, ⟨"C", ([] : List String)⟩] ∧
      "C" ∈ "B" :: getAllBelow "B" [⟨"A", ["B"]⟩, ⟨"B", ["C"]⟩, ⟨"C", ([] : List String)⟩]) ∧
    ("B" : String) ≠ "C" ∧
    findSupremum "A" "B" [⟨"A", ["B"]⟩, ⟨"B", ["C"]⟩, ⟨"C", ([] : List String)⟩] =
      some "A" ∧
    "A" ∉ "B" :: getAllBelow "B" [⟨"A", ["B"]⟩, ⟨"B", ["C"]⟩, ⟨"C", ([] : List String)⟩] := by
  refine ⟨?_, ?_, by decide, ?_, ?_⟩ <;>
    simp [findSupremum, getAllAbove, getAllBelow, getAllAboveAux_cons, getAllAboveAux_nil,
      getAllBelowAux_cons, getAllBelowAux_nil, getAllAboveStep, getAllAboveStepAux,
      getAllBelowStep, pushFresh, List.find?]

/-- Evaluation of the bottom candidates of the diamond example. -/
theorem bottomCandidates_initial_eval : bottomCandidates initialLattice = ["A"] := by
  simp [bottomCandidates, isBottomCandidate, initialLattice, getAllBelow,
    getAllBelowAux_cons, getAllBelowAux_nil, getAllBelowStep, pushFresh, List.find?]

/-- Evaluation of the top candidates of the diamond example. -/
theorem topCandidates_initial_eval : topCandidates initialLattice = ["D"] := by
  simp [topCandidates, isTopCandidate, initialLattice, getAllBelow,
    getAllBelowAux_cons, getAllBelowAux_nil, getAllBelowStep, pushFresh, List.find?]

/-- Witness for C6 (amended) at the spec's diamond example: bottom `A`,
top `D`. -/
theorem handleCheckBounded_spec_witness :
    handleCheckBounded initialLattice = BoundedVerdict.Bounded "A" "D" :=
  ((handleCheckBounded_spec initialLattice (by decide) (by decide)).2.2.1 "A" "D").mpr
    ⟨bottomCandidates_initial_eval, topCandidates_initial_eval⟩

/-- C6 counterexample: two sources each feeding one member of a 2-cycle of
tops.  There are two top candidates and no bottom candidate, so by the
claim's reading ("Ambiguous iff either candidate set has more than one
member") the verdict should be `Ambiguous`, but the code's emptiness check
runs first and reports `Unbounded`. -/
theorem handleCheckBounded_precedence_counterexample :
    handleCheckBounded [⟨"A", ["T1"]⟩, ⟨"B", ["T2"]⟩, ⟨"T1", ["T2"]⟩,
      ⟨"T2", (["T1"] : List String)⟩] = BoundedVerdict.Unbounded ∧
    (topCandidates [⟨"A", ["T1"]⟩, ⟨"B", ["T2"]⟩, ⟨"T1", ["T2"]⟩,
      ⟨"T2", (["T1"] : List String)⟩]).length = 2 := by
  constructor <;>
    simp [handleCheckBounded, bottomCandidates, topCandidates, isBottomCandidate,
      isTopCandidate, getAllBelow, getAllBelowAux_cons, getAllBelowAux_nil,
      getAllBelowStep, pushFresh, List.find?]

/-- Witness for C9 (amended) at the diamond example with the absent start
element `X`. -/
theorem traversal_termination_spec_witness :
    getAllAbove "X" initialLattice = [] ∧ getAllBelow "X" initialLattice = [] ∧
    (getAllAboveTrace "X" initialLattice).count "B" ≤ 1 := by
  obtain ⟨_h1, _h2, h3, _h4, _h5, _h6, _h7, _h8, h9, h10⟩ :=
    traversal_termination_spec initialLattice "X"
  exact ⟨h9 (by decide), h10 (by decide), h3 "B" (by decide)⟩

/-- C9 counterexample: on the 2-cycle `A ↔ B` the start node `A` is enqueued
twice by the reverse traversal (once as the initial queue element, once when
rediscovered through the cycle), refuting "no node is ever enqueued twice";
and a start element absent from the adjacency keys but referenced by a
connection yields a non-empty reverse-reachability set, refuting "an absent
start element yields an empty reachable set" under the key-absence reading. -/
theorem traversal_enqueued_twice_counterexample :
    (getAllAboveTrace "A" [⟨"A", ["B"]⟩, ⟨"B", (["A"] : List String)⟩]).count "A" = 2 ∧
    getAllAbove "A" [⟨"B", (["A"] : List String)⟩] = ["B"] := by
  constructor <;>
    simp [getAllAboveTrace, getAllAbove, getAllAboveAux_cons, getAllAboveAux_nil,
      getAllAboveStep, getAllAboveStepAux, List.count_cons]

end Discreta
